import Mathlib

/-!
# Torre de Fuga: sorting and searching a component array

A shallow embedding of `FreeFire.c`: the record `Componente`, the three
instrumented sorts (`bubbleSortNome`, `insertionSortTipo`,
`selectionSortPrioridade`) and `buscaBinariaPorNome`.

Modelling conventions.

* A C string is the list of its bytes before the terminating NUL (each byte
  is in `1..255`); the end of the list stands for the NUL byte.
* The array `Componente a[]` together with its length `n` is a
  `List Componente`; `n` is the length of the list.  A read `a[j]` is
  `rd a j`, a write `a[j] = x` is `List.set a j x`.
* The out-parameter `long *comparacoes` is returned as a natural number next
  to the array.  The program only calls the routines with `n ≤ MAX_COMP`, so
  the counter stays far below the range of `long`.
* A counted `for` loop is a recursion on the number of iterations that are
  left; its index is carried along as in the source.
* One turn of the menu loop of `main` is `menuPasso`, a function of the session
  state and of what the two reads of the turn yield; the elapsed time that
  `medirTempo` returns is not modelled.
-/

namespace FreeFire

/-- Capacity of the component array (`#define MAX_COMP 20`). -/
def MAX_COMP : Nat := 20

/-- C string, as the list of its bytes before the terminating NUL. -/
abbrev CStr := List Nat

/-- The record `Componente` of the source: `nome`, `tipo`, `prioridade`. -/
structure Componente where
  nome : CStr
  tipo : CStr
  prioridade : Int
deriving DecidableEq

instance : Inhabited Componente := ⟨⟨[], [], 0⟩⟩

/-- The library routine `strcmp`, up to the sign of its result (the only
thing the C standard fixes and the only thing the source looks at): bytes are
compared as unsigned values, and the end of a string is the NUL byte, which
is below every byte of a string. -/
def strcmp : CStr → CStr → Int
  | [], [] => 0
  | [], _ :: _ => -1
  | _ :: _, [] => 1
  | x :: xs, y :: ys => if x < y then -1 else if y < x then 1 else strcmp xs ys

/-- Array read `a[j]`. -/
def rd (a : List Componente) (j : Nat) : Componente := a.getD j default

/-! ## bubbleSortNome -/

/-- Body of the inner loop of `bubbleSortNome` at index `j`; the state is
`(a, *comparacoes, trocou)`. -/
def bubbleBody (j : Nat) (s : List Componente × Nat × Bool) : List Componente × Nat × Bool :=
  if strcmp (rd s.1 j).nome (rd s.1 (j + 1)).nome > 0 then
    ((s.1.set j (rd s.1 (j + 1))).set (j + 1) (rd s.1 j), s.2.1 + 1, true)
  else
    (s.1, s.2.1 + 1, s.2.2)

/-- Inner loop `for (j = ...; j < n - 1 - i; j++)` with `rem` iterations left,
the next one at index `j`. -/
def bubbleInner : Nat → Nat → List Componente × Nat × Bool → List Componente × Nat × Bool
  | 0, _, s => s
  | rem + 1, j, s => bubbleInner rem (j + 1) (bubbleBody j s)

/-- Outer loop `for (i = ...; i < n - 1; i++)` with `rem` iterations left, the
next one at index `i`; it stops early when a pass swapped nothing. -/
def bubbleOuter (n : Nat) : Nat → Nat → List Componente × Nat → List Componente × Nat
  | 0, _, s => s
  | rem + 1, i, s =>
    let r := bubbleInner (n - 1 - i) 0 (s.1, s.2, false)
    if r.2.2 = false then (r.1, r.2.1) else bubbleOuter n rem (i + 1) (r.1, r.2.1)

/-- Routine `bubbleSortNome(a, n, &comparacoes)`: the array and the counter after
the call. -/
def bubbleSortNome (a : List Componente) : List Componente × Nat :=
  bubbleOuter a.length (a.length - 1) 0 (a, 0)

/-! ## insertionSortTipo -/

/-- The `while (j >= 0)` loop of `insertionSortTipo`, entered with `k = j + 1`
(so `k = 0` is `j = -1`, where the loop ends).  The result is the array, the
counter and the final `j + 1`. -/
def insertionInner (key : Componente) : Nat → List Componente → Nat → List Componente × Nat × Nat
  | 0, a, c => (a, c, 0)
  | j + 1, a, c =>
    if strcmp (rd a j).tipo key.tipo > 0 then
      insertionInner key j (a.set (j + 1) (rd a j)) (c + 1)
    else
      (a, c + 1, j + 1)

/-- Body of the outer loop of `insertionSortTipo` at index `i`. -/
def insertionBody (i : Nat) (s : List Componente × Nat) : List Componente × Nat :=
  let key := rd s.1 i
  let r := insertionInner key i s.1 s.2
  (r.1.set r.2.2 key, r.2.1)

/-- Outer loop `for (i = ...; i < n; i++)` with `rem` iterations left. -/
def insertionOuter : Nat → Nat → List Componente × Nat → List Componente × Nat
  | 0, _, s => s
  | rem + 1, i, s => insertionOuter rem (i + 1) (insertionBody i s)

/-- Routine `insertionSortTipo(a, n, &comparacoes)`: the array and the counter after
the call. -/
def insertionSortTipo (a : List Componente) : List Componente × Nat :=
  insertionOuter (a.length - 1) 1 (a, 0)

/-! ## selectionSortPrioridade -/

/-- Inner loop `for (j = ...; j < n; j++)` of `selectionSortPrioridade` with
`rem` iterations left; the state is `(maxIdx, *comparacoes)`. -/
def selectionInner (a : List Componente) : Nat → Nat → Nat × Nat → Nat × Nat
  | 0, _, s => s
  | rem + 1, j, s =>
    selectionInner a rem (j + 1)
      (if (rd a j).prioridade > (rd a s.1).prioridade then (j, s.2 + 1) else (s.1, s.2 + 1))

/-- Body of the outer loop of `selectionSortPrioridade` at index `i`. -/
def selectionBody (n i : Nat) (s : List Componente × Nat) : List Componente × Nat :=
  let r := selectionInner s.1 (n - (i + 1)) (i + 1) (i, s.2)
  if r.1 ≠ i then ((s.1.set i (rd s.1 r.1)).set r.1 (rd s.1 i), r.2) else (s.1, r.2)

/-- Outer loop `for (i = ...; i < n - 1; i++)` with `rem` iterations left. -/
def selectionOuter (n : Nat) : Nat → Nat → List Componente × Nat → List Componente × Nat
  | 0, _, s => s
  | rem + 1, i, s => selectionOuter n rem (i + 1) (selectionBody n i s)

/-- Routine `selectionSortPrioridade(a, n, &comparacoes)`: the array and the counter
after the call. -/
def selectionSortPrioridade (a : List Componente) : List Componente × Nat :=
  selectionOuter a.length (a.length - 1) 0 (a, 0)

/-! ## buscaBinariaPorNome -/

/-- The `while (lo <= hi)` loop of `buscaBinariaPorNome`.  `lo`, `hi` and
`mid` are C `int`s (`hi` may reach `-1`); the division is the C one, on a
non-negative dividend.  The loop is run with a bound on its iterations and
yields `none` if the bound is reached while `lo <= hi` still holds. -/
def buscaLoop (a : List Componente) (chave : CStr) : Nat → Int → Int → Nat → Option (Int × Nat)
  | 0, lo, hi, c => if lo ≤ hi then none else some (-1, c)
  | fuel + 1, lo, hi, c =>
    if lo ≤ hi then
      let mid := lo + (hi - lo) / 2
      let cmp := strcmp (rd a mid.toNat).nome chave
      if cmp = 0 then some (mid, c + 1)
      else if cmp < 0 then buscaLoop a chave fuel (mid + 1) hi (c + 1)
      else buscaLoop a chave fuel lo (mid - 1) (c + 1)
    else some (-1, c)

/-- Routine `buscaBinariaPorNome(a, n, chave, &comparacoes)`: the returned index
and the counter.  Each iteration shrinks `hi - lo + 1`, which starts at `n`, so
`n` iterations are enough (`buscaBinariaPorNome_isSome`). -/
def buscaBinariaPorNome (a : List Componente) (chave : CStr) : Option (Int × Nat) :=
  buscaLoop a chave a.length 0 ((a.length : Int) - 1) 0

/-! ## Specification vocabulary -/

/-- Non-decreasing by name under `strcmp`. -/
def SortedByNome (a : List Componente) : Prop :=
  a.Pairwise (fun x y => strcmp x.nome y.nome ≤ 0)

/-- Non-decreasing by type under `strcmp`. -/
def SortedByTipo (a : List Componente) : Prop :=
  a.Pairwise (fun x y => strcmp x.tipo y.tipo ≤ 0)

/-- Non-increasing by priority. -/
def SortedByPrioridade (a : List Componente) : Prop :=
  a.Pairwise (fun x y => x.prioridade ≥ y.prioridade)

instance (a : List Componente) : Decidable (SortedByNome a) := by
  unfold SortedByNome; infer_instance

instance (a : List Componente) : Decidable (SortedByTipo a) := by
  unfold SortedByTipo; infer_instance

instance (a : List Componente) : Decidable (SortedByPrioridade a) := by
  unfold SortedByPrioridade; infer_instance

/-! ## Orders and loop invariants used in the proofs -/

/-- Order by name used by the bubble sort. -/
def nomeLe (x y : Componente) : Prop := strcmp x.nome y.nome ≤ 0

/-- Invariant of the outer loop of the bubble sort: the last `i` cells already hold
their final records, each at least as large as everything before it. -/
def BubbleInv (n i : Nat) (a : List Componente) : Prop :=
  a.length = n ∧ ∀ p q, p < q → q < n → n - i ≤ q → nomeLe (rd a p) (rd a q)

/-- Invariant of the outer loop of the selection sort: each of the first `i` cells
holds a priority at least as high as every later cell. -/
def SelectionInv (n i : Nat) (a : List Componente) : Prop :=
  a.length = n ∧ ∀ p q, p < q → q < n → p < i → (rd a p).prioridade ≥ (rd a q).prioridade

/-! ## Concrete scenario -/

/-- Bytes of the name `alpha`. -/
def alpha : CStr := [97, 108, 112, 104, 97]
/-- Bytes of the name `mike`. -/
def mike : CStr := [109, 105, 107, 101]
/-- Bytes of the name `zeta`. -/
def zeta : CStr := [122, 101, 116, 97]

/-- The example records of the concrete scenario. -/
def cenario : List Componente := [⟨zeta, [120], 1⟩, ⟨alpha, [121], 5⟩, ⟨mike, [120], 3⟩]

/-- The scenario's records in name order. -/
def cenarioPorNome : List Componente := [⟨alpha, [121], 5⟩, ⟨mike, [120], 3⟩, ⟨zeta, [120], 1⟩]

/-! ## The comparison count of the insertion sort, by its formula -/

/-- Number of positions `j < i` whose type sorts strictly after the type at position `i`
(the `s_i` of the comparison-count formula of the insertion sort). -/
def deslocamentos (a : List Componente) (i : Nat) : Nat :=
  ((List.range i).filter (fun j => decide (strcmp (rd a j).tipo (rd a i).tipo > 0))).length

/-- Comparisons of the insertion sort at position `i`, by the formula: one per shifted
record, plus one for the comparison that stops the scan before the front of the array. -/
def custoInsertion (a : List Componente) (i : Nat) : Nat :=
  deslocamentos a i + (if deslocamentos a i < i then 1 else 0)

/-- Total of `custoInsertion` over `i = 1, …, n - 1`. -/
def comparacoesInsertion (a : List Componente) : Nat :=
  ((List.range' 1 (a.length - 1)).map (custoInsertion a)).sum

/-! ## The menu loop of `main` -/

/-- State of the session in `main`: the registered records `comps[0..n-1]` and the flag
`ordenadoPorNome`. -/
structure Sessao where
  comps : List Componente
  ordenadoPorNome : Bool
deriving DecidableEq

/-- What one turn of the menu reports.  `ordenado opc comp` is the line
`Comparações: comp` after the sort of option `opc` (the elapsed time is not modelled);
`aviso` is the guidance message of option 4; `busca compsBin idx lido` is the report of
a search, with `lido` the record `comps[idx]` that is read when `idx >= 0`;
`mostrar` is option 5; `nada` is a turn that takes no branch. -/
inductive Saida where
  | ordenado (opc : Nat) (comp : Nat)
  | aviso
  | busca (compsBin : Nat) (idx : Int) (lido : Option Componente)
  | mostrar
  | nada
deriving DecidableEq

/-- Outcome of one turn of the `do … while (opc != 0)` loop: the loop goes on in a new
state, or `main` returns (option 0, or a read that met the end of the input), or the
search exceeded its iteration bound (which never happens). -/
inductive Passo where
  | continua (s : Sessao) (out : Saida)
  | fim
  | semResposta
deriving DecidableEq

/-- One turn of the menu loop of `main`.  `opc` is the result of
`lerInt("Escolha: ", &opc, 0, 5)` (`none` when it meets the end of the input) and `linha`
is what `lerLinha` yields for the query if it is called (`none` at the end of the
input). -/
def menuPasso (s : Sessao) (opc : Option Nat) (linha : Option CStr) : Passo :=
  match opc with
  | none => Passo.fim
  | some 1 =>
    Passo.continua ⟨(bubbleSortNome s.comps).1, true⟩ (Saida.ordenado 1 (bubbleSortNome s.comps).2)
  | some 2 =>
    Passo.continua ⟨(insertionSortTipo s.comps).1, false⟩
      (Saida.ordenado 2 (insertionSortTipo s.comps).2)
  | some 3 =>
    Passo.continua ⟨(selectionSortPrioridade s.comps).1, false⟩
      (Saida.ordenado 3 (selectionSortPrioridade s.comps).2)
  | some 4 =>
    if s.ordenadoPorNome = false then Passo.continua s Saida.aviso
    else
      match linha with
      | none => Passo.fim
      | some chave =>
        match buscaBinariaPorNome s.comps chave with
        | none => Passo.semResposta
        | some (idx, compsBin) =>
          Passo.continua s
            (Saida.busca compsBin idx (if idx ≥ 0 then some (rd s.comps idx.toNat) else none))
  | some 5 => Passo.continua s Saida.mostrar
  | some 0 => Passo.fim
  | some _ => Passo.continua s Saida.nada

/-- Whether a turn ran `buscaBinariaPorNome` (and so reported a comparison count). -/
def buscou : Passo → Bool
  | Passo.continua _ (Saida.busca _ _ _) => true
  | _ => false

/-- States the menu loop can be in, from the registered records `a0` and a clear flag. -/
inductive Alcancavel (a0 : List Componente) : Sessao → Prop where
  | inicio : Alcancavel a0 ⟨a0, false⟩
  | passo {s t : Sessao} (opc : Option Nat) (linha : Option CStr) (out : Saida) :
      Alcancavel a0 s → menuPasso s opc linha = Passo.continua t out → Alcancavel a0 t

/-! ## Further example inputs -/

/-- Records with equal priorities on which the selection sort is not stable. -/
def instavel : List Componente := [⟨alpha, [120], 1⟩, ⟨mike, [120], 1⟩, ⟨zeta, [120], 5⟩]

/-- Records among which one name occurs twice. -/
def repetidos : List Componente :=
  [⟨zeta, [120], 1⟩, ⟨mike, [121], 7⟩, ⟨alpha, [121], 5⟩, ⟨mike, [120], 3⟩]

/-! ## Order facts about `strcmp` -/

theorem strcmp_self (s : CStr) : strcmp s s = 0 := by
  induction s with
  | nil => rfl
  | cons x xs ih => simp [strcmp, ih]

theorem strcmp_eq_zero_iff (s t : CStr) : strcmp s t = 0 ↔ s = t := by
  induction s generalizing t with
  | nil => cases t <;> simp [strcmp]
  | cons x xs ih =>
    cases t with
    | nil => simp [strcmp]
    | cons y ys =>
      simp only [strcmp]
      split_ifs with h1 h2
      · simp; omega
      · simp; omega
      · have : x = y := by omega
        simp [ih, this]

theorem strcmp_pos_iff (s t : CStr) : 0 < strcmp s t ↔ strcmp t s < 0 := by
  induction s generalizing t with
  | nil => cases t <;> simp [strcmp]
  | cons x xs ih =>
    cases t with
    | nil => simp [strcmp]
    | cons y ys =>
      simp only [strcmp]
      split_ifs <;> first | omega | simp | exact ih ys

theorem strcmp_le_trans (s t u : CStr) (h1 : strcmp s t ≤ 0) (h2 : strcmp t u ≤ 0) :
    strcmp s u ≤ 0 := by
  induction s generalizing t u with
  | nil => cases u <;> simp [strcmp]
  | cons x xs ih =>
    cases t with
    | nil => simp [strcmp] at h1
    | cons y ys =>
      cases u with
      | nil => simp [strcmp] at h2
      | cons z zs =>
        simp only [strcmp] at h1 h2 ⊢
        split_ifs at h1 h2 ⊢ <;> first | omega | exact ih ys zs h1 h2

theorem strcmp_lt_of_lt_of_le (s t u : CStr) (h1 : strcmp s t < 0) (h2 : strcmp t u ≤ 0) :
    strcmp s u < 0 := by
  have h := strcmp_le_trans s t u (le_of_lt h1) h2
  rcases lt_or_eq_of_le h with h | h
  · exact h
  · rw [strcmp_eq_zero_iff] at h
    subst h
    have := (strcmp_pos_iff t s).2 h1
    omega

theorem strcmp_lt_of_le_of_lt (s t u : CStr) (h1 : strcmp s t ≤ 0) (h2 : strcmp t u < 0) :
    strcmp s u < 0 := by
  have h := strcmp_le_trans s t u h1 (le_of_lt h2)
  rcases lt_or_eq_of_le h with h | h
  · exact h
  · rw [strcmp_eq_zero_iff] at h
    subst h
    have := (strcmp_pos_iff s t).2 h2
    omega
/-! ## Array reads and writes -/

theorem rd_eq_getElem (a : List Componente) (j : Nat) (h : j < a.length) : rd a j = a[j] := by
  unfold rd
  exact List.getD_eq_getElem a default h

theorem rd_set_self (a : List Componente) (j : Nat) (x : Componente) (h : j < a.length) :
    rd (a.set j x) j = x := by
  unfold rd
  simp [List.getElem?_set, h]

theorem rd_set_ne (a : List Componente) (i j : Nat) (x : Componente) (h : i ≠ j) :
    rd (a.set i x) j = rd a j := by
  unfold rd
  simp [List.getElem?_set, h]

theorem rd_append_left (l t : List Componente) (j : Nat) (h : j < l.length) :
    rd (l ++ t) j = rd l j := by
  unfold rd
  simp [List.getElem?_append_left h]

theorem rd_append_length (l t : List Componente) (x : Componente) :
    rd (l ++ x :: t) l.length = x := by
  rw [rd_eq_getElem _ _ (by simp)]
  exact List.getElem_of_append rfl rfl

theorem set_append_length (l t : List Componente) (x y : Componente) :
    (l ++ x :: t).set l.length y = l ++ y :: t := by
  simp

theorem set_rd_self (a : List Componente) (j : Nat) : a.set j (rd a j) = a := by
  induction a generalizing j with
  | nil => simp
  | cons x xs ih =>
    cases j with
    | zero => simp [rd]
    | succ j => simpa [rd] using ih j

theorem rd_mem (a : List Componente) (j : Nat) (h : j < a.length) : rd a j ∈ a := by
  rw [rd_eq_getElem a j h]
  exact List.getElem_mem h

/-- Exchanging two cells of the array permutes it. -/
theorem swap_perm (a : List Componente) (i j : Nat) (hi : i < a.length) (hj : j < a.length) :
    ((a.set i (rd a j)).set j (rd a i)).Perm a := by
  rw [List.perm_iff_count]
  intro x
  rw [List.count_set _ _ _ _ (by simpa using hj), List.count_set _ _ _ _ hi]
  have hp : (if (rd a i == x) = true then 1 else 0) ≤ a.count x := by
    split_ifs with h
    · have : rd a i = x := by simpa using h
      exact List.count_pos_iff.2 (this ▸ rd_mem a i hi)
    · omega
  have hq : (a.set i (rd a j)).get ⟨j, by simpa using hj⟩ = rd a j := by
    by_cases hij : i = j
    · subst hij; simp
    · simp only [List.get_eq_getElem]
      rw [List.getElem_set_ne hij, rd_eq_getElem a j hj]
  simp only [List.get_eq_getElem] at hq
  rw [hq, ← rd_eq_getElem a i hi]
  omega
/-! ## Index form of sortedness; one pass of the bubble sort -/

theorem pairwise_of_rd (R : Componente → Componente → Prop) (a : List Componente)
    (h : ∀ p q, p < q → q < a.length → R (rd a p) (rd a q)) : a.Pairwise R := by
  rw [List.pairwise_iff_getElem]
  intro i j hi hj hij
  have := h i j hij hj
  rwa [rd_eq_getElem a i hi, rd_eq_getElem a j hj] at this

theorem rd_of_pairwise (R : Componente → Componente → Prop) (a : List Componente)
    (h : a.Pairwise R) (p q : Nat) (hpq : p < q) (hq : q < a.length) : R (rd a p) (rd a q) := by
  rw [List.pairwise_iff_getElem] at h
  rw [rd_eq_getElem a p (by omega), rd_eq_getElem a q hq]
  exact h p q (by omega) hq hpq

theorem nomeLe_refl (x : Componente) : nomeLe x x := by
  unfold nomeLe; rw [strcmp_self]

theorem nomeLe_trans {x y z : Componente} (h1 : nomeLe x y) (h2 : nomeLe y z) : nomeLe x z :=
  strcmp_le_trans _ _ _ h1 h2

theorem nomeLe_of_gt {x y : Componente} (h : strcmp x.nome y.nome > 0) : nomeLe y x := by
  unfold nomeLe
  have := (strcmp_pos_iff x.nome y.nome).1 h
  omega

theorem bubbleBody_cases (j : Nat) (s : List Componente × Nat × Bool) :
    (nomeLe (rd s.1 j) (rd s.1 (j + 1)) ∧ bubbleBody j s = (s.1, s.2.1 + 1, s.2.2)) ∨
    (strcmp (rd s.1 j).nome (rd s.1 (j + 1)).nome > 0 ∧
      bubbleBody j s = ((s.1.set j (rd s.1 (j + 1))).set (j + 1) (rd s.1 j), s.2.1 + 1, true)) := by
  unfold bubbleBody nomeLe
  by_cases h : strcmp (rd s.1 j).nome (rd s.1 (j + 1)).nome > 0
  · right; simp [h]
  · left; simp [h]; omega

theorem bubbleBody_length (j : Nat) (s : List Componente × Nat × Bool) :
    (bubbleBody j s).1.length = s.1.length := by
  rcases bubbleBody_cases j s with ⟨_, h⟩ | ⟨_, h⟩ <;> simp [h]

theorem bubbleBody_count (j : Nat) (s : List Componente × Nat × Bool) :
    (bubbleBody j s).2.1 = s.2.1 + 1 := by
  rcases bubbleBody_cases j s with ⟨_, h⟩ | ⟨_, h⟩ <;> simp [h]

theorem bubbleBody_perm (j : Nat) (s : List Componente × Nat × Bool) (hj : j + 1 < s.1.length) :
    (bubbleBody j s).1.Perm s.1 := by
  rcases bubbleBody_cases j s with ⟨_, h⟩ | ⟨_, h⟩
  · simp [h]
  · rw [h]; exact swap_perm s.1 j (j + 1) (by omega) hj

theorem bubbleBody_rd_other (j : Nat) (s : List Componente × Nat × Bool) (q : Nat)
    (h1 : q ≠ j) (h2 : q ≠ j + 1) : rd (bubbleBody j s).1 q = rd s.1 q := by
  rcases bubbleBody_cases j s with ⟨_, h⟩ | ⟨_, h⟩
  · simp [h]
  · rw [h]; simp only
    rw [rd_set_ne _ _ _ _ (Ne.symm h2), rd_set_ne _ _ _ _ (Ne.symm h1)]

/-- The two cells visited by the body hold the same two records afterwards, in order. -/
theorem bubbleBody_pair (j : Nat) (s : List Componente × Nat × Bool) (hj : j + 1 < s.1.length) :
    nomeLe (rd (bubbleBody j s).1 j) (rd (bubbleBody j s).1 (j + 1)) ∧
    ((rd (bubbleBody j s).1 j = rd s.1 j ∧ rd (bubbleBody j s).1 (j + 1) = rd s.1 (j + 1)) ∨
     (rd (bubbleBody j s).1 j = rd s.1 (j + 1) ∧ rd (bubbleBody j s).1 (j + 1) = rd s.1 j)) := by
  rcases bubbleBody_cases j s with ⟨hle, h⟩ | ⟨hgt, h⟩
  · rw [h]; exact ⟨hle, Or.inl ⟨rfl, rfl⟩⟩
  · have e1 : rd (bubbleBody j s).1 j = rd s.1 (j + 1) := by
      rw [h]; simp only
      rw [rd_set_ne _ _ _ _ (by omega), rd_set_self _ _ _ (by omega)]
    have e2 : rd (bubbleBody j s).1 (j + 1) = rd s.1 j := by
      rw [h]; simp only
      rw [rd_set_self _ _ _ (by simpa using hj)]
    rw [e1, e2]
    exact ⟨nomeLe_of_gt hgt, Or.inr ⟨rfl, rfl⟩⟩

theorem bubbleInner_length (rem j : Nat) (s : List Componente × Nat × Bool) :
    (bubbleInner rem j s).1.length = s.1.length := by
  induction rem generalizing j s with
  | zero => rfl
  | succ rem ih => rw [bubbleInner, ih, bubbleBody_length]

theorem bubbleInner_count (rem j : Nat) (s : List Componente × Nat × Bool) :
    (bubbleInner rem j s).2.1 = s.2.1 + rem := by
  induction rem generalizing j s with
  | zero => rfl
  | succ rem ih => rw [bubbleInner, ih, bubbleBody_count]; omega

theorem bubbleInner_perm (rem j : Nat) (s : List Componente × Nat × Bool)
    (h : j + rem < s.1.length) : (bubbleInner rem j s).1.Perm s.1 := by
  induction rem generalizing j s with
  | zero => exact List.Perm.refl _
  | succ rem ih =>
    rw [bubbleInner]
    exact (ih (j + 1) _ (by rw [bubbleBody_length]; omega)).trans
      (bubbleBody_perm j s (by omega))

theorem bubbleInner_rd_other (rem j : Nat) (s : List Componente × Nat × Bool) (q : Nat)
    (h : q < j ∨ j + rem < q) : rd (bubbleInner rem j s).1 q = rd s.1 q := by
  induction rem generalizing j s with
  | zero => rfl
  | succ rem ih =>
    rw [bubbleInner, ih (j + 1) _ (by omega), bubbleBody_rd_other j s q (by omega) (by omega)]

/-- A property shared by all cells up to `m` is still shared by them after the pass. -/
theorem bubbleInner_prefix (P : Componente → Prop) (rem j : Nat)
    (s : List Componente × Nat × Bool) (m : Nat) (hm : j + rem ≤ m) (hlen : j + rem < s.1.length)
    (h : ∀ p, p ≤ m → P (rd s.1 p)) : ∀ p, p ≤ m → P (rd (bubbleInner rem j s).1 p) := by
  induction rem generalizing j s with
  | zero => exact h
  | succ rem ih =>
    rw [bubbleInner]
    apply ih (j + 1) _ (by omega) (by rw [bubbleBody_length]; omega)
    intro p hp
    by_cases h1 : p = j
    · subst h1
      rcases (bubbleBody_pair p s (by omega)).2 with ⟨e, _⟩ | ⟨e, _⟩ <;> rw [e]
      · exact h p hp
      · exact h (p + 1) (by omega)
    · by_cases h2 : p = j + 1
      · subst h2
        rcases (bubbleBody_pair j s (by omega)).2 with ⟨_, e⟩ | ⟨_, e⟩ <;> rw [e]
        · exact h (j + 1) hp
        · exact h j (by omega)
      · rw [bubbleBody_rd_other j s p h1 h2]; exact h p hp

/-- After the pass the last visited cell holds a greatest name of the visited prefix. -/
theorem bubbleInner_max (rem j : Nat) (s : List Componente × Nat × Bool)
    (hlen : j + rem < s.1.length) (h : ∀ p, p ≤ j → nomeLe (rd s.1 p) (rd s.1 j)) :
    ∀ p, p ≤ j + rem →
      nomeLe (rd (bubbleInner rem j s).1 p) (rd (bubbleInner rem j s).1 (j + rem)) := by
  induction rem generalizing j s with
  | zero => exact h
  | succ rem ih =>
    rw [bubbleInner]
    have := ih (j + 1) (bubbleBody j s) (by rw [bubbleBody_length]; omega) ?_
    · intro p hp
      have := this p (by omega)
      rwa [show j + 1 + rem = j + (rem + 1) by omega] at this
    · intro p hp
      obtain ⟨hle, hcase⟩ := bubbleBody_pair j s (by omega)
      by_cases h2 : p = j + 1
      · subst h2; exact nomeLe_refl _
      · by_cases h1 : p = j
        · subst h1; exact hle
        · rw [bubbleBody_rd_other j s p h1 h2]
          rcases hcase with ⟨e1, e2⟩ | ⟨e1, e2⟩
          · have := h p (by omega)
            rw [e1] at hle
            rw [e2]
            exact nomeLe_trans this (e2 ▸ hle)
          · rw [e2]; exact h p (by omega)

/-- A pass that reports no swap changed nothing and saw only ordered pairs. -/
theorem bubbleInner_noswap (rem j : Nat) (s : List Componente × Nat × Bool)
    (h : (bubbleInner rem j s).2.2 = false) :
    s.2.2 = false ∧ (bubbleInner rem j s).1 = s.1 ∧
      ∀ p, j ≤ p → p < j + rem → nomeLe (rd s.1 p) (rd s.1 (p + 1)) := by
  induction rem generalizing j s with
  | zero => exact ⟨h, rfl, fun p h1 h2 => by omega⟩
  | succ rem ih =>
    rw [bubbleInner] at h ⊢
    obtain ⟨h1, h2, h3⟩ := ih (j + 1) _ h
    rcases bubbleBody_cases j s with ⟨hle, e⟩ | ⟨_, e⟩
    · rw [e] at h1 h2 h3
      simp only at h1 h2 h3
      refine ⟨h1, by rw [e]; exact h2, fun p hp1 hp2 => ?_⟩
      by_cases hp : p = j
      · subst hp; exact hle
      · exact h3 p (by omega) (by omega)
    · rw [e] at h1; simp at h1

/-- On a stretch of ordered pairs the pass changes neither the array nor the flag. -/
theorem bubbleInner_sorted (rem j : Nat) (s : List Componente × Nat × Bool)
    (h : ∀ p, j ≤ p → p < j + rem → nomeLe (rd s.1 p) (rd s.1 (p + 1))) :
    bubbleInner rem j s = (s.1, s.2.1 + rem, s.2.2) := by
  induction rem generalizing j s with
  | zero => rfl
  | succ rem ih =>
    rw [bubbleInner]
    rcases bubbleBody_cases j s with ⟨_, e⟩ | ⟨hgt, _⟩
    · rw [e, ih (j + 1) (s.1, s.2.1 + 1, s.2.2) (fun p h1 h2 => h p (by omega) (by omega))]
      simp only [Prod.mk.injEq, true_and, and_true]
      omega
    · have := h j (le_refl _) (by omega)
      unfold nomeLe at this
      omega

/-! ## The outer loop of the bubble sort -/

theorem nomeLe_chain (a : List Componente) (m : Nat)
    (h : ∀ p, p < m → nomeLe (rd a p) (rd a (p + 1))) :
    ∀ p q, p ≤ q → q ≤ m → nomeLe (rd a p) (rd a q) := by
  intro p q hpq hq
  induction q with
  | zero =>
    have : p = 0 := by omega
    subst this; exact nomeLe_refl _
  | succ q ih =>
    by_cases hp : p = q + 1
    · subst hp; exact nomeLe_refl _
    · exact nomeLe_trans (ih (by omega) (by omega)) (h q (by omega))

theorem bubbleInner_inv (n i : Nat) (a : List Componente) (c : Nat) (hi : i + 1 < n)
    (inv : BubbleInv n i a) :
    BubbleInv n (i + 1) (bubbleInner (n - 1 - i) 0 (a, c, false)).1 := by
  obtain ⟨hlen, hord⟩ := inv
  have hb : 0 + (n - 1 - i) < (a, c, false).1.length := by simp only; omega
  refine ⟨by rw [bubbleInner_length]; exact hlen, ?_⟩
  intro p q hpq hq hge
  by_cases hqm : q = n - 1 - i
  · have := bubbleInner_max (n - 1 - i) 0 (a, c, false) hb
      (fun p hp => by
        have : p = 0 := by omega
        subst this; exact nomeLe_refl _) p (by omega)
    rw [Nat.zero_add] at this
    rw [hqm]; exact this
  · have hq2 : n - i ≤ q := by omega
    rw [bubbleInner_rd_other (n - 1 - i) 0 (a, c, false) q (Or.inr (by omega))]
    by_cases hpm : p ≤ n - 1 - i
    · exact bubbleInner_prefix (fun x => nomeLe x (rd a q)) (n - 1 - i) 0 (a, c, false)
        (n - 1 - i) (by omega) hb (fun p hp => hord p q (by omega) hq hq2) p hpm
    · rw [bubbleInner_rd_other (n - 1 - i) 0 (a, c, false) p (Or.inr (by omega))]
      exact hord p q hpq hq hq2

theorem bubbleOuter_spec (n rem i : Nat) (s : List Componente × Nat) (hrem : rem + i = n - 1)
    (inv : BubbleInv n i s.1) :
    (bubbleOuter n rem i s).1.Perm s.1 ∧
      ∀ p q, p < q → q < n → nomeLe (rd (bubbleOuter n rem i s).1 p) (rd (bubbleOuter n rem i s).1 q) := by
  induction rem generalizing i s with
  | zero =>
    refine ⟨List.Perm.refl _, fun p q hpq hq => ?_⟩
    exact inv.2 p q hpq hq (by omega)
  | succ rem ih =>
    rw [bubbleOuter]
    have hb : 0 + (n - 1 - i) < (s.1, s.2, false).1.length := by
      simp only; rw [inv.1]; omega
    have hperm := bubbleInner_perm (n - 1 - i) 0 (s.1, s.2, false) hb
    split_ifs with hflag
    · refine ⟨hperm, fun p q hpq hq => ?_⟩
      obtain ⟨_, heq, hadj⟩ := bubbleInner_noswap _ _ _ hflag
      rw [heq]
      simp only at hadj ⊢
      by_cases hqm : q ≤ n - 1 - i
      · exact nomeLe_chain s.1 (n - 1 - i) (fun p hp => hadj p (by omega) (by omega)) p q
          (by omega) hqm
      · exact inv.2 p q hpq hq (by omega)
    · have := ih (i + 1) ((bubbleInner (n - 1 - i) 0 (s.1, s.2, false)).1,
        (bubbleInner (n - 1 - i) 0 (s.1, s.2, false)).2.1) (by omega)
        (bubbleInner_inv n i s.1 s.2 (by omega) inv)
      exact ⟨this.1.trans hperm, this.2⟩

theorem bubbleOuter_length (n rem i : Nat) (s : List Componente × Nat) :
    (bubbleOuter n rem i s).1.length = s.1.length := by
  induction rem generalizing i s with
  | zero => rfl
  | succ rem ih =>
    rw [bubbleOuter]
    split_ifs
    · simp only; rw [bubbleInner_length]
    · rw [ih]; simp only; rw [bubbleInner_length]

theorem bubbleSortNome_length (a : List Componente) : (bubbleSortNome a).1.length = a.length :=
  bubbleOuter_length _ _ _ _

theorem bubbleSortNome_perm (a : List Componente) : (bubbleSortNome a).1.Perm a :=
  (bubbleOuter_spec a.length (a.length - 1) 0 (a, 0) (by omega)
    ⟨rfl, fun p q _ hq hge => by omega⟩).1

theorem bubbleSortNome_sorted (a : List Componente) : SortedByNome (bubbleSortNome a).1 := by
  apply pairwise_of_rd
  intro p q hpq hq
  rw [bubbleSortNome_length] at hq
  exact (bubbleOuter_spec a.length (a.length - 1) 0 (a, 0) (by omega)
    ⟨rfl, fun p q _ hq hge => by omega⟩).2 p q hpq hq

/-! ## Selection sort -/

theorem rd_swap (a : List Componente) (i m q : Nat) (hi : i < a.length) (hm : m < a.length) :
    rd ((a.set i (rd a m)).set m (rd a i)) q =
      if q = m then rd a i else if q = i then rd a m else rd a q := by
  split_ifs with h1 h2
  · subst h1; rw [rd_set_self _ _ _ (by simpa using hm)]
  · subst h2; rw [rd_set_ne _ _ _ _ (Ne.symm h1), rd_set_self _ _ _ hi]
  · rw [rd_set_ne _ _ _ _ (Ne.symm h1), rd_set_ne _ _ _ _ (Ne.symm h2)]

theorem selectionInner_count (a : List Componente) (rem j : Nat) (s : Nat × Nat) :
    (selectionInner a rem j s).2 = s.2 + rem := by
  induction rem generalizing j s with
  | zero => rfl
  | succ rem ih =>
    rw [selectionInner, ih]
    split_ifs <;> simp only <;> omega

/-- The inner loop leaves in `maxIdx` the position of a greatest priority among the
cells from `i` up to the last one visited. -/
theorem selectionInner_max (a : List Componente) (i rem j : Nat) (s : Nat × Nat)
    (h1 : i ≤ s.1) (h2 : s.1 < j)
    (h3 : ∀ k, i ≤ k → k < j → (rd a k).prioridade ≤ (rd a s.1).prioridade) :
    i ≤ (selectionInner a rem j s).1 ∧ (selectionInner a rem j s).1 < j + rem ∧
      ∀ k, i ≤ k → k < j + rem →
        (rd a k).prioridade ≤ (rd a (selectionInner a rem j s).1).prioridade := by
  induction rem generalizing j s with
  | zero => exact ⟨h1, h2, h3⟩
  | succ rem ih =>
    rw [selectionInner]
    have key : ∀ t : Nat × Nat, i ≤ t.1 → t.1 < j + 1 →
        (∀ k, i ≤ k → k < j + 1 → (rd a k).prioridade ≤ (rd a t.1).prioridade) →
        i ≤ (selectionInner a rem (j + 1) t).1 ∧ (selectionInner a rem (j + 1) t).1 < j + (rem + 1) ∧
        ∀ k, i ≤ k → k < j + (rem + 1) →
          (rd a k).prioridade ≤ (rd a (selectionInner a rem (j + 1) t).1).prioridade := by
      intro t t1 t2 t3
      have := ih (j + 1) t t1 t2 t3
      rwa [show j + 1 + rem = j + (rem + 1) by omega] at this
    split_ifs with hgt
    · apply key
      · simp only; omega
      · simp only; omega
      · intro k hk1 hk2
        simp only
        by_cases hk : k = j
        · subst hk; exact le_refl _
        · have := h3 k hk1 (by omega)
          omega
    · apply key
      · exact h1
      · simp only; omega
      · intro k hk1 hk2
        simp only
        by_cases hk : k = j
        · subst hk; omega
        · exact h3 k hk1 (by omega)

/-- When nothing visited beats the current `maxIdx`, it is not moved. -/
theorem selectionInner_keep (a : List Componente) (rem j : Nat) (s : Nat × Nat)
    (h : ∀ k, j ≤ k → k < j + rem → (rd a k).prioridade ≤ (rd a s.1).prioridade) :
    (selectionInner a rem j s).1 = s.1 := by
  induction rem generalizing j s with
  | zero => rfl
  | succ rem ih =>
    rw [selectionInner]
    have := h j (le_refl _) (by omega)
    rw [if_neg (by omega)]
    rw [ih (j + 1) (s.1, s.2 + 1) (fun k hk1 hk2 => h k (by omega) (by omega))]

theorem selectionBody_count (n i : Nat) (s : List Componente × Nat) :
    (selectionBody n i s).2 = s.2 + (n - (i + 1)) := by
  unfold selectionBody
  simp only
  split_ifs <;> simp only <;> rw [selectionInner_count]

theorem selectionBody_length (n i : Nat) (s : List Componente × Nat) :
    (selectionBody n i s).1.length = s.1.length := by
  unfold selectionBody
  simp only
  split_ifs <;> simp

/-- Description of the array after one step of the outer loop: the cells `i` and
`m = maxIdx` have exchanged their records, where `m` holds a greatest priority from
`i` on. -/
theorem selectionBody_rd (n i : Nat) (s : List Componente × Nat) (hlen : s.1.length = n)
    (hi : i + 1 < n) :
    ∃ m, i ≤ m ∧ m < n ∧ (∀ k, i ≤ k → k < n → (rd s.1 k).prioridade ≤ (rd s.1 m).prioridade) ∧
      (selectionBody n i s).1.Perm s.1 ∧
      ∀ q, rd (selectionBody n i s).1 q =
        if q = m then rd s.1 i else if q = i then rd s.1 m else rd s.1 q := by
  obtain ⟨m1, m2, m3⟩ := selectionInner_max s.1 i (n - (i + 1)) (i + 1) (i, s.2)
    (le_refl _) (by simp only; omega) (fun k hk1 hk2 => by
      have : k = i := by omega
      subst this; exact le_refl _)
  rw [show i + 1 + (n - (i + 1)) = n by omega] at m2 m3
  refine ⟨(selectionInner s.1 (n - (i + 1)) (i + 1) (i, s.2)).1, m1, m2, m3, ?_, ?_⟩
  · unfold selectionBody
    simp only
    split_ifs with h
    · exact swap_perm _ _ _ (by omega) (by omega)
    · exact List.Perm.refl _
  · intro q
    unfold selectionBody
    simp only
    split_ifs with h h1 h2 h3 h4
    · subst h1; rw [rd_swap _ _ _ _ (by omega) (by omega)]; simp
    · subst h2; rw [rd_swap _ _ _ _ (by omega) (by omega)]; simp [h1]
    · rw [rd_swap _ _ _ _ (by omega) (by omega)]; simp [*]
    · subst h3; rw [not_not.1 h]
    · subst h4; rw [not_not.1 h]
    · rfl

theorem selectionBody_inv (n i : Nat) (s : List Componente × Nat) (hi : i + 1 < n)
    (inv : SelectionInv n i s.1) : SelectionInv n (i + 1) (selectionBody n i s).1 := by
  obtain ⟨hlen, hord⟩ := inv
  obtain ⟨m, m1, m2, m3, _, hrd⟩ := selectionBody_rd n i s hlen hi
  refine ⟨by rw [selectionBody_length]; exact hlen, ?_⟩
  intro p q hpq hq hp
  rw [hrd p, hrd q]
  by_cases hpi : p = i
  · subst hpi
    have e1 : (if p = m then rd s.1 p else if p = p then rd s.1 m else rd s.1 p) = rd s.1 m := by
      by_cases h : p = m
      · rw [if_pos h, ← h]
      · rw [if_neg h, if_pos rfl]
    rw [e1]
    split_ifs with h1 h2
    · exact m3 p (le_refl _) (by omega)
    · omega
    · exact m3 q (by omega) hq
  · rw [if_neg (by omega), if_neg hpi]
    split_ifs with h1 h2
    · exact hord p i (by omega) (by omega) (by omega)
    · exact hord p m (by omega) m2 (by omega)
    · exact hord p q hpq hq (by omega)

theorem selectionOuter_spec (n rem i : Nat) (s : List Componente × Nat) (hrem : rem + i = n - 1)
    (inv : SelectionInv n i s.1) :
    (selectionOuter n rem i s).1.Perm s.1 ∧ SelectionInv n (n - 1) (selectionOuter n rem i s).1 := by
  induction rem generalizing i s with
  | zero =>
    have : i = n - 1 := by omega
    subst this
    exact ⟨List.Perm.refl _, inv⟩
  | succ rem ih =>
    rw [selectionOuter]
    have := ih (i + 1) (selectionBody n i s) (by omega) (selectionBody_inv n i s (by omega) inv)
    obtain ⟨_, _, _, _, hperm, _⟩ := selectionBody_rd n i s inv.1 (by omega)
    exact ⟨this.1.trans hperm, this.2⟩

theorem selectionOuter_count (n rem i : Nat) (s : List Componente × Nat) (hrem : rem + i = n - 1) :
    2 * (selectionOuter n rem i s).2 = 2 * s.2 + rem * (rem + 1) := by
  induction rem generalizing i s with
  | zero => simp [selectionOuter]
  | succ rem ih =>
    rw [selectionOuter, ih (i + 1) _ (by omega), selectionBody_count]
    have : n - (i + 1) = rem + 1 := by omega
    rw [this]
    ring

theorem selectionSortPrioridade_perm (a : List Componente) :
    (selectionSortPrioridade a).1.Perm a :=
  (selectionOuter_spec a.length (a.length - 1) 0 (a, 0) (by omega)
    ⟨rfl, fun p q _ _ hp => by omega⟩).1

theorem selectionSortPrioridade_sorted (a : List Componente) :
    SortedByPrioridade (selectionSortPrioridade a).1 := by
  obtain ⟨hlen, hord⟩ := (selectionOuter_spec a.length (a.length - 1) 0 (a, 0) (by omega)
    ⟨rfl, fun p q _ _ hp => by omega⟩).2
  apply pairwise_of_rd
  intro p q hpq hq
  exact hord p q hpq (by unfold selectionSortPrioridade at hq; omega) (by unfold selectionSortPrioridade at hq; omega)

/-! ## Insertion sort -/

/-- The inner loop of the insertion sort, on an array `L ++ y :: T` entered at the cell of
`y`: the records of `L` that sort after the key (a suffix `L2` of `L`) are moved one cell
up, and the loop stops at the cell after `L1`. -/
theorem insertionInner_spec (key : Componente) (L : List Componente) :
    ∀ (y : Componente) (T : List Componente) (c : Nat),
    ∃ L1 L2 y2, L = L1 ++ L2 ∧ (∀ x ∈ L2, strcmp x.tipo key.tipo > 0) ∧
      (∀ x, L1.getLast? = some x → strcmp x.tipo key.tipo ≤ 0) ∧
      insertionInner key L.length (L ++ y :: T) c =
        (L1 ++ y2 :: (L2 ++ T), c + L2.length + (if L1 = [] then 0 else 1), L1.length) := by
  induction L using List.reverseRecOn with
  | nil =>
    intro y T c
    exact ⟨[], [], y, rfl, by simp, by simp, by simp [insertionInner]⟩
  | append_singleton L z ih =>
    intro y T c
    have hlen : (L ++ [z]).length = L.length + 1 := by simp
    have hrd : rd (L ++ [z] ++ y :: T) L.length = z := by
      rw [List.append_assoc]
      exact rd_append_length L _ z
    rw [hlen, insertionInner, hrd]
    by_cases hgt : strcmp z.tipo key.tipo > 0
    · rw [if_pos hgt]
      have hset : (L ++ [z] ++ y :: T).set (L.length + 1) z = L ++ z :: z :: T := by
        have := set_append_length (L ++ [z]) T y z
        rw [hlen] at this
        rw [this]; simp
      rw [hset]
      obtain ⟨L1, L2, y2, h1, h2, h3, h4⟩ := ih z (z :: T) (c + 1)
      refine ⟨L1, L2 ++ [z], y2, by rw [h1]; simp, ?_, h3, ?_⟩
      · intro x hx
        rcases List.mem_append.1 hx with hx | hx
        · exact h2 x hx
        · have : x = z := by simpa using hx
          rw [this]; exact hgt
      · rw [h4]
        simp only [List.append_assoc, List.singleton_append, List.length_append,
          List.length_singleton, Prod.mk.injEq, true_and, and_true]
        omega
    · rw [if_neg hgt]
      refine ⟨L ++ [z], [], y, by simp, by simp, ?_, ?_⟩
      · intro x hx
        have : x = z := by simpa using hx.symm
        rw [this]; omega
      · simp

theorem insertionBody_spec (S R : List Componente) (key : Componente) (c : Nat) :
    ∃ L1 L2, S = L1 ++ L2 ∧ (∀ x ∈ L2, strcmp x.tipo key.tipo > 0) ∧
      (∀ x, L1.getLast? = some x → strcmp x.tipo key.tipo ≤ 0) ∧
      insertionBody S.length (S ++ key :: R, c) =
        (L1 ++ key :: L2 ++ R, c + L2.length + (if L1 = [] then 0 else 1)) := by
  obtain ⟨L1, L2, y2, h1, h2, h3, h4⟩ := insertionInner_spec key S key R c
  refine ⟨L1, L2, h1, h2, h3, ?_⟩
  unfold insertionBody
  simp only
  rw [rd_append_length, h4]
  simp only [Prod.mk.injEq, and_true]
  rw [set_append_length]
  simp

theorem insertion_sorted (L1 L2 : List Componente) (key : Componente)
    (hs : SortedByTipo (L1 ++ L2)) (h2 : ∀ x ∈ L2, strcmp x.tipo key.tipo > 0)
    (h3 : ∀ x, L1.getLast? = some x → strcmp x.tipo key.tipo ≤ 0) :
    SortedByTipo (L1 ++ key :: L2) := by
  unfold SortedByTipo at hs ⊢
  rw [List.pairwise_append] at hs ⊢
  obtain ⟨s1, s2, s3⟩ := hs
  have hkey : ∀ b ∈ L2, strcmp key.tipo b.tipo ≤ 0 := fun b hb => by
    have := (strcmp_pos_iff b.tipo key.tipo).1 (h2 b hb)
    omega
  have hL1 : ∀ a ∈ L1, strcmp a.tipo key.tipo ≤ 0 := by
    intro a ha
    rcases List.eq_nil_or_concat L1 with h | ⟨L, z, h⟩
    · subst h; simp at ha
    · rw [List.concat_eq_append] at h
      subst h
      have hz := h3 z (by simp)
      rcases List.mem_append.1 ha with ha | ha
      · rw [List.pairwise_append] at s1
        exact strcmp_le_trans _ _ _ (s1.2.2 a ha z (by simp)) hz
      · have : a = z := by simpa using ha
        rw [this]; exact hz
  refine ⟨s1, List.pairwise_cons.2 ⟨hkey, s2⟩, ?_⟩
  intro a ha b hb
  rcases List.mem_cons.1 hb with hb | hb
  · rw [hb]; exact hL1 a ha
  · exact s3 a ha b hb

theorem insertionOuter_spec (R : List Componente) :
    ∀ (S : List Componente) (c : Nat), SortedByTipo S →
      (insertionOuter R.length S.length (S ++ R, c)).1.Perm (S ++ R) ∧
      SortedByTipo (insertionOuter R.length S.length (S ++ R, c)).1 := by
  induction R with
  | nil =>
    intro S c hs
    simp only [List.length_nil, insertionOuter, List.append_nil]
    exact ⟨List.Perm.refl _, hs⟩
  | cons key R ih =>
    intro S c hs
    obtain ⟨L1, L2, h1, h2, h3, h4⟩ := insertionBody_spec S R key c
    rw [List.length_cons, insertionOuter, h4]
    have hlen : S.length + 1 = (L1 ++ key :: L2).length := by rw [h1]; simp; omega
    have happ : L1 ++ key :: L2 ++ R = (L1 ++ key :: L2) ++ R := by simp
    rw [hlen, happ]
    have := ih (L1 ++ key :: L2) (c + L2.length + (if L1 = [] then 0 else 1))
      (insertion_sorted L1 L2 key (h1 ▸ hs) h2 h3)
    refine ⟨this.1.trans ?_, this.2⟩
    rw [h1]
    simp only [List.append_assoc, List.cons_append]
    exact List.Perm.append_left L1 List.perm_middle.symm

theorem insertionSortTipo_spec (a : List Componente) :
    (insertionSortTipo a).1.Perm a ∧ SortedByTipo (insertionSortTipo a).1 := by
  cases a with
  | nil => exact ⟨List.Perm.refl _, List.Pairwise.nil⟩
  | cons x R =>
    have := insertionOuter_spec R [x] 0 (List.pairwise_singleton _ _)
    simpa [insertionSortTipo] using this

/-! ## Binary search -/

theorem buscaLoop_step (a : List Componente) (chave : CStr) (fuel : Nat) (lo hi : Int) (c : Nat)
    (h : lo ≤ hi) :
    buscaLoop a chave (fuel + 1) lo hi c =
      if strcmp (rd a (lo + (hi - lo) / 2).toNat).nome chave = 0 then
        some (lo + (hi - lo) / 2, c + 1)
      else if strcmp (rd a (lo + (hi - lo) / 2).toNat).nome chave < 0 then
        buscaLoop a chave fuel (lo + (hi - lo) / 2 + 1) hi (c + 1)
      else buscaLoop a chave fuel lo (lo + (hi - lo) / 2 - 1) (c + 1) := by
  rw [buscaLoop, if_pos h]

theorem buscaLoop_exit (a : List Componente) (chave : CStr) (fuel : Nat) (lo hi : Int) (c : Nat)
    (h : ¬ lo ≤ hi) : buscaLoop a chave fuel lo hi c = some (-1, c) := by
  cases fuel <;> rw [buscaLoop, if_neg h]

/-- On a name-sorted array, a query that occurs between `lo` and `hi` is found there. -/
theorem buscaLoop_found (a : List Componente) (chave : CStr) (hs : SortedByNome a) :
    ∀ (fuel : Nat) (lo hi : Int) (c : Nat), 0 ≤ lo → hi < a.length → hi - lo + 1 ≤ fuel →
      (∃ k : Int, lo ≤ k ∧ k ≤ hi ∧ (rd a k.toNat).nome = chave) →
      ∃ i cnt, buscaLoop a chave fuel lo hi c = some (i, cnt) ∧ lo ≤ i ∧ i ≤ hi ∧
        (rd a i.toNat).nome = chave := by
  intro fuel
  induction fuel with
  | zero =>
    intro lo hi c _ _ hf ⟨k, hk1, hk2, _⟩
    omega
  | succ fuel ih =>
    intro lo hi c hlo hhi hf ⟨k, hk1, hk2, hk3⟩
    have hle : lo ≤ hi := by omega
    rw [buscaLoop_step a chave fuel lo hi c hle]
    have hord : ∀ p q : Int, 0 ≤ p → p < q → q < a.length →
        strcmp (rd a p.toNat).nome (rd a q.toNat).nome ≤ 0 := fun p q h0 h1 h2 =>
      rd_of_pairwise _ a hs p.toNat q.toNat (by omega) (by omega)
    by_cases h0 : strcmp (rd a (lo + (hi - lo) / 2).toNat).nome chave = 0
    · rw [if_pos h0]
      exact ⟨_, _, rfl, by omega, by omega, (strcmp_eq_zero_iff _ _).1 h0⟩
    · rw [if_neg h0]
      by_cases h1 : strcmp (rd a (lo + (hi - lo) / 2).toNat).nome chave < 0
      · rw [if_pos h1]
        have hk : lo + (hi - lo) / 2 < k := by
          by_contra hcon
          rcases lt_or_eq_of_le (not_lt.1 hcon) with hlt | heq
          · have := hord k (lo + (hi - lo) / 2) (by omega) hlt (by omega)
            rw [hk3] at this
            have := (strcmp_pos_iff chave (rd a (lo + (hi - lo) / 2).toNat).nome).2 h1
            omega
          · rw [heq] at hk3; rw [hk3, strcmp_self] at h0; exact h0 rfl
        obtain ⟨i, cnt, e, e1, e2, e3⟩ := ih (lo + (hi - lo) / 2 + 1) hi (c + 1) (by omega) hhi
          (by omega) ⟨k, by omega, hk2, hk3⟩
        exact ⟨i, cnt, e, by omega, e2, e3⟩
      · rw [if_neg h1]
        have hk : k < lo + (hi - lo) / 2 := by
          by_contra hcon
          rcases lt_or_eq_of_le (not_lt.1 hcon) with hlt | heq
          · have := hord (lo + (hi - lo) / 2) k (by omega) hlt (by omega)
            rw [hk3] at this
            omega
          · rw [← heq] at hk3; rw [hk3, strcmp_self] at h0; exact h0 rfl
        obtain ⟨i, cnt, e, e1, e2, e3⟩ := ih lo (lo + (hi - lo) / 2 - 1) (c + 1) hlo (by omega)
          (by omega) ⟨k, hk1, by omega, hk3⟩
        exact ⟨i, cnt, e, e1, by omega, e3⟩

/-- A query that is the name of no record is reported as not found. -/
theorem buscaLoop_absent (a : List Componente) (chave : CStr)
    (habs : ∀ x ∈ a, x.nome ≠ chave) :
    ∀ (fuel : Nat) (lo hi : Int) (c : Nat), 0 ≤ lo → hi < a.length → hi - lo + 1 ≤ fuel →
      ∃ cnt, buscaLoop a chave fuel lo hi c = some (-1, cnt) := by
  intro fuel
  induction fuel with
  | zero =>
    intro lo hi c _ _ hf
    exact ⟨c, buscaLoop_exit a chave 0 lo hi c (by omega)⟩
  | succ fuel ih =>
    intro lo hi c hlo hhi hf
    by_cases hle : lo ≤ hi
    · rw [buscaLoop_step a chave fuel lo hi c hle]
      have h0 : ¬ strcmp (rd a (lo + (hi - lo) / 2).toNat).nome chave = 0 := by
        intro h
        exact habs _ (rd_mem a _ (by omega)) ((strcmp_eq_zero_iff _ _).1 h)
      rw [if_neg h0]
      split_ifs
      · exact ih _ _ _ (by omega) hhi (by omega)
      · exact ih _ _ _ hlo (by omega) (by omega)
    · exact ⟨c, buscaLoop_exit a chave _ lo hi c hle⟩

theorem clog_succ_half (m : Nat) (hm : 1 ≤ m) :
    Nat.clog 2 (m + 1) = Nat.clog 2 (m / 2 + 1) + 1 := by
  rw [Nat.clog_of_two_le (by omega) (by omega)]
  congr 2
  omega

/-- Each probe at least halves the interval, so the loop makes at most
`⌈log2 (size + 1)⌉` probes. -/
theorem buscaLoop_count_le (a : List Componente) (chave : CStr) :
    ∀ (fuel : Nat) (lo hi : Int) (c : Nat), hi - lo + 1 ≤ fuel →
      ∃ r, buscaLoop a chave fuel lo hi c = some r ∧
        r.2 ≤ c + Nat.clog 2 ((hi - lo + 1).toNat + 1) := by
  intro fuel
  induction fuel with
  | zero =>
    intro lo hi c hf
    exact ⟨_, buscaLoop_exit a chave 0 lo hi c (by omega), by simp⟩
  | succ fuel ih =>
    intro lo hi c hf
    by_cases hle : lo ≤ hi
    · rw [buscaLoop_step a chave fuel lo hi c hle]
      have hclog := clog_succ_half (hi - lo + 1).toNat (by omega)
      split_ifs
      · exact ⟨_, rfl, by simp only; omega⟩
      · obtain ⟨r, e, hr⟩ := ih (lo + (hi - lo) / 2 + 1) hi (c + 1) (by omega)
        refine ⟨r, e, hr.trans ?_⟩
        have := Nat.clog_mono_right 2
          (show (hi - (lo + (hi - lo) / 2 + 1) + 1).toNat + 1 ≤ (hi - lo + 1).toNat / 2 + 1 by omega)
        omega
      · obtain ⟨r, e, hr⟩ := ih lo (lo + (hi - lo) / 2 - 1) (c + 1) (by omega)
        refine ⟨r, e, hr.trans ?_⟩
        have := Nat.clog_mono_right 2
          (show (lo + (hi - lo) / 2 - 1 - lo + 1).toNat + 1 ≤ (hi - lo + 1).toNat / 2 + 1 by omega)
        omega
    · exact ⟨_, buscaLoop_exit a chave _ lo hi c hle, by simp⟩

/-- A query that sorts after every name makes exactly `⌈log2 (size + 1)⌉` probes. -/
theorem buscaLoop_count_right (a : List Componente) (chave : CStr)
    (hlt : ∀ x ∈ a, strcmp x.nome chave < 0) :
    ∀ (fuel : Nat) (lo hi : Int) (c : Nat), 0 ≤ lo → hi < a.length → hi - lo + 1 ≤ fuel →
      buscaLoop a chave fuel lo hi c = some (-1, c + Nat.clog 2 ((hi - lo + 1).toNat + 1)) := by
  intro fuel
  induction fuel with
  | zero =>
    intro lo hi c _ _ hf
    rw [buscaLoop_exit a chave 0 lo hi c (by omega)]
    have : (hi - lo + 1).toNat = 0 := by omega
    simp [this]
  | succ fuel ih =>
    intro lo hi c hlo hhi hf
    by_cases hle : lo ≤ hi
    · rw [buscaLoop_step a chave fuel lo hi c hle]
      have h1 := hlt _ (rd_mem a (lo + (hi - lo) / 2).toNat (by omega))
      rw [if_neg (by omega), if_pos h1, ih _ _ _ (by omega) hhi (by omega)]
      rw [clog_succ_half (hi - lo + 1).toNat (by omega)]
      have : (hi - (lo + (hi - lo) / 2 + 1) + 1).toNat = (hi - lo + 1).toNat / 2 := by omega
      rw [this]
      simp only [Option.some.injEq, Prod.mk.injEq, true_and]
      omega
    · rw [buscaLoop_exit a chave _ lo hi c hle]
      have : (hi - lo + 1).toNat = 0 := by omega
      simp [this]

/-! ## Already sorted input -/

theorem bubbleSortNome_of_sorted (a : List Componente) (hs : SortedByNome a) :
    bubbleSortNome a = (a, a.length - 1) := by
  unfold bubbleSortNome
  cases hn : a.length - 1 with
  | zero => rfl
  | succ m =>
    rw [bubbleOuter]
    have := bubbleInner_sorted (a.length - 1 - 0) 0 (a, 0, false)
      (fun p _ hp => rd_of_pairwise _ a hs p (p + 1) (by omega) (by omega))
    rw [this]
    simp only [if_true, Nat.zero_add, Nat.sub_zero]
    rw [hn]

theorem insertionOuter_of_sorted (R : List Componente) :
    ∀ (S : List Componente) (c : Nat), S ≠ [] → SortedByTipo (S ++ R) →
      insertionOuter R.length S.length (S ++ R, c) = (S ++ R, c + R.length) := by
  induction R with
  | nil => intro S c _ _; rfl
  | cons key R ih =>
    intro S c hne hs
    obtain ⟨L1, L2, h1, h2, h3, h4⟩ := insertionBody_spec S R key c
    have hL2 : L2 = [] := by
      rcases List.eq_nil_or_concat L2 with h | ⟨L, z, h⟩
      · exact h
      · exfalso
        rw [List.concat_eq_append] at h
        have hz := h2 z (by rw [h]; simp)
        unfold SortedByTipo at hs
        rw [List.pairwise_append] at hs
        have := hs.2.2 z (by rw [h1, h]; simp) key (by simp)
        omega
    subst hL2
    rw [List.append_nil] at h1
    subst h1
    rw [List.length_cons, insertionOuter, h4, if_neg hne]
    have hlen : S.length + 1 = (S ++ [key]).length := by simp
    have happ : S ++ [key] ++ R = S ++ key :: R := by simp
    rw [hlen]
    have := ih (S ++ [key]) (c + ([] : List Componente).length + 1) (by simp) (by rw [happ]; exact hs)
    rw [happ] at this ⊢
    rw [this]
    simp only [List.length_nil, Prod.mk.injEq, true_and]
    omega

theorem insertionSortTipo_of_sorted (a : List Componente) (hs : SortedByTipo a) :
    insertionSortTipo a = (a, a.length - 1) := by
  cases a with
  | nil => rfl
  | cons x R =>
    have := insertionOuter_of_sorted R [x] 0 (by simp) hs
    simpa [insertionSortTipo] using this

theorem selectionBody_of_sorted (a : List Componente) (hs : SortedByPrioridade a) (i c : Nat) :
    (selectionBody a.length i (a, c)).1 = a := by
  have := selectionInner_keep a (a.length - (i + 1)) (i + 1) (i, c) (fun k hk1 hk2 =>
    rd_of_pairwise _ a hs i k (by omega) (by omega))
  unfold selectionBody
  simp only at this ⊢
  rw [this]
  simp

theorem selectionOuter_of_sorted (a : List Componente) (hs : SortedByPrioridade a) :
    ∀ (rem i c : Nat), (selectionOuter a.length rem i (a, c)).1 = a := by
  intro rem
  induction rem with
  | zero => intro i c; rfl
  | succ rem ih =>
    intro i c
    rw [selectionOuter]
    have h := selectionBody_of_sorted a hs i c
    have : selectionBody a.length i (a, c) = (a, (selectionBody a.length i (a, c)).2) := by
      rw [Prod.ext_iff]; exact ⟨h, rfl⟩
    rw [this]
    exact ih _ _

theorem selectionSortPrioridade_of_sorted (a : List Componente) (hs : SortedByPrioridade a) :
    (selectionSortPrioridade a).1 = a :=
  selectionOuter_of_sorted a hs _ _ _

theorem selectionSortPrioridade_count (a : List Componente) :
    2 * (selectionSortPrioridade a).2 = (a.length - 1) * a.length := by
  have := selectionOuter_count a.length (a.length - 1) 0 (a, 0) (by omega)
  unfold selectionSortPrioridade
  rw [this]
  cases a.length with
  | zero => rfl
  | succ n => simp

theorem buscaBinariaPorNome_isSome (a : List Componente) (chave : CStr) :
    (buscaBinariaPorNome a chave).isSome = true := by
  obtain ⟨r, e, _⟩ := buscaLoop_count_le a chave a.length 0 ((a.length : Int) - 1) 0 (by omega)
  unfold buscaBinariaPorNome
  rw [e]; rfl

/-! ## Lower bounds on the comparison counts -/

theorem bubbleOuter_count_ge (n rem i : Nat) (s : List Componente × Nat) :
    s.2 ≤ (bubbleOuter n rem i s).2 := by
  induction rem generalizing i s with
  | zero => exact le_refl _
  | succ rem ih =>
    rw [bubbleOuter]
    have hc := bubbleInner_count (n - 1 - i) 0 (s.1, s.2, false)
    simp only at hc
    split_ifs
    · simp only; omega
    · have := ih (i + 1) ((bubbleInner (n - 1 - i) 0 (s.1, s.2, false)).1,
        (bubbleInner (n - 1 - i) 0 (s.1, s.2, false)).2.1)
      simp only at this
      omega

/-- Whatever the input, the bubble sort makes at least the `n - 1` comparisons of its
first pass. -/
theorem bubbleSortNome_count_ge (a : List Componente) : a.length - 1 ≤ (bubbleSortNome a).2 := by
  unfold bubbleSortNome
  cases hn : a.length - 1 with
  | zero => exact Nat.zero_le _
  | succ m =>
    rw [bubbleOuter]
    have hc := bubbleInner_count (a.length - 1 - 0) 0 (a, 0, false)
    simp only at hc ⊢
    split_ifs
    · simp only; omega
    · have := bubbleOuter_count_ge a.length m (0 + 1)
        ((bubbleInner (a.length - 1 - 0) 0 (a, 0, false)).1,
          (bubbleInner (a.length - 1 - 0) 0 (a, 0, false)).2.1)
      simp only at this
      omega

theorem insertionOuter_count_ge (R : List Componente) :
    ∀ (S : List Componente) (c : Nat), S ≠ [] →
      c + R.length ≤ (insertionOuter R.length S.length (S ++ R, c)).2 := by
  induction R with
  | nil => intro S c _; exact le_refl _
  | cons key R ih =>
    intro S c hne
    obtain ⟨L1, L2, h1, _, _, h4⟩ := insertionBody_spec S R key c
    rw [List.length_cons, insertionOuter, h4]
    have hlen : S.length + 1 = (L1 ++ key :: L2).length := by rw [h1]; simp; omega
    have happ : L1 ++ key :: L2 ++ R = (L1 ++ key :: L2) ++ R := by simp
    rw [hlen, happ]
    have := ih (L1 ++ key :: L2) (c + L2.length + (if L1 = [] then 0 else 1)) (by simp)
    have hpos : 1 ≤ L2.length + (if L1 = [] then 0 else 1) := by
      split_ifs with h
      · subst h
        rw [List.nil_append] at h1
        subst h1
        exact List.length_pos.2 hne
      · omega
    omega

/-- Whatever the input, the insertion sort makes at least one comparison for each of
the `n - 1` keys it inserts. -/
theorem insertionSortTipo_count_ge (a : List Componente) :
    a.length - 1 ≤ (insertionSortTipo a).2 := by
  cases a with
  | nil => exact Nat.zero_le _
  | cons x R =>
    have := insertionOuter_count_ge R [x] 0 (by simp)
    simpa [insertionSortTipo] using this

/-! ## Stability of the insertion sort and of the bubble sort -/

theorem strcmp_ne_of_pos {s t : CStr} (h : strcmp s t > 0) : s ≠ t := by
  intro e
  rw [e, strcmp_self] at h
  omega

theorem insertionBody_filter (S R : List Componente) (key : Componente) (c : Nat) (t : CStr) :
    (insertionBody S.length (S ++ key :: R, c)).1.filter (fun x => decide (x.tipo = t)) =
      (S ++ key :: R).filter (fun x => decide (x.tipo = t)) := by
  obtain ⟨L1, L2, h1, h2, _, h4⟩ := insertionBody_spec S R key c
  rw [h4, h1]
  simp only [List.append_assoc, List.cons_append, List.filter_append, List.filter_cons]
  by_cases hk : key.tipo = t
  · have hL2 : L2.filter (fun x => decide (x.tipo = t)) = [] := by
      rw [List.filter_eq_nil_iff]
      intro x hx
      have := strcmp_ne_of_pos (h2 x hx)
      simp only [decide_eq_true_eq]
      rw [← hk]; exact this
    simp [hk, hL2]
  · simp [hk]

/-- The insertion sort keeps, for every type, the records of that type in their order. -/
theorem insertionOuter_filter (t : CStr) (R : List Componente) :
    ∀ (S : List Componente) (c : Nat),
      (insertionOuter R.length S.length (S ++ R, c)).1.filter (fun x => decide (x.tipo = t)) =
        (S ++ R).filter (fun x => decide (x.tipo = t)) := by
  induction R with
  | nil => intro S c; rfl
  | cons key R ih =>
    intro S c
    have hf := insertionBody_filter S R key c t
    obtain ⟨L1, L2, h1, _, _, h4⟩ := insertionBody_spec S R key c
    rw [List.length_cons, insertionOuter]
    rw [h4] at hf ⊢
    have hlen : S.length + 1 = (L1 ++ key :: L2).length := by rw [h1]; simp; omega
    have happ : L1 ++ key :: L2 ++ R = (L1 ++ key :: L2) ++ R := by simp
    rw [hlen, happ, ih (L1 ++ key :: L2), ← happ]
    exact hf

theorem insertionSortTipo_filter (a : List Componente) (t : CStr) :
    (insertionSortTipo a).1.filter (fun x => decide (x.tipo = t)) =
      a.filter (fun x => decide (x.tipo = t)) := by
  cases a with
  | nil => rfl
  | cons x R =>
    have := insertionOuter_filter t R [x] 0
    simpa [insertionSortTipo] using this

/-- Two neighbouring cells of the array, with what is before and after them. -/
theorem adjacent_split (a : List Componente) :
    ∀ j, j + 1 < a.length → ∃ P T, P.length = j ∧ a = P ++ rd a j :: rd a (j + 1) :: T := by
  induction a with
  | nil => intro j h; simp at h
  | cons x xs ih =>
    intro j h
    cases j with
    | zero =>
      cases xs with
      | nil => simp at h
      | cons y T => exact ⟨[], T, rfl, rfl⟩
    | succ j =>
      obtain ⟨P, T, hP, hT⟩ := ih j (by simpa using h)
      refine ⟨x :: P, T, by simp [hP], ?_⟩
      have e1 : rd (x :: xs) (j + 1) = rd xs j := rfl
      have e2 : rd (x :: xs) (j + 1 + 1) = rd xs (j + 1) := rfl
      rw [e1, e2, List.cons_append, ← hT]

theorem swap_adjacent (a : List Componente) (j : Nat) (P T : List Componente)
    (hP : P.length = j) (ha : a = P ++ rd a j :: rd a (j + 1) :: T) :
    (a.set j (rd a (j + 1))).set (j + 1) (rd a j) = P ++ rd a (j + 1) :: rd a j :: T := by
  generalize rd a j = x at ha ⊢
  generalize rd a (j + 1) = y at ha ⊢
  subst ha
  subst hP
  rw [set_append_length]
  have : P ++ y :: y :: T = (P ++ [y]) ++ y :: T := by simp
  rw [this]
  have hl : P.length + 1 = (P ++ [y]).length := by simp
  rw [hl, set_append_length]
  simp

theorem bubbleBody_filter (j : Nat) (s : List Componente × Nat × Bool) (hj : j + 1 < s.1.length)
    (t : CStr) :
    (bubbleBody j s).1.filter (fun x => decide (x.nome = t)) =
      s.1.filter (fun x => decide (x.nome = t)) := by
  rcases bubbleBody_cases j s with ⟨_, h⟩ | ⟨hgt, h⟩
  · rw [h]
  · rw [h]
    obtain ⟨P, T, hP, hT⟩ := adjacent_split s.1 j hj
    simp only
    rw [swap_adjacent s.1 j P T hP hT]
    have hne := strcmp_ne_of_pos hgt
    conv_rhs => rw [hT]
    simp only [List.filter_append, List.filter_cons]
    by_cases h1 : (rd s.1 j).nome = t
    · have h2 : ¬ (rd s.1 (j + 1)).nome = t := fun h2 => hne (h1.trans h2.symm)
      simp [h1, h2]
    · simp [h1]

theorem bubbleInner_filter (t : CStr) (rem j : Nat) (s : List Componente × Nat × Bool)
    (h : j + rem < s.1.length) :
    (bubbleInner rem j s).1.filter (fun x => decide (x.nome = t)) =
      s.1.filter (fun x => decide (x.nome = t)) := by
  induction rem generalizing j s with
  | zero => rfl
  | succ rem ih =>
    rw [bubbleInner, ih (j + 1) _ (by rw [bubbleBody_length]; omega),
      bubbleBody_filter j s (by omega)]

theorem bubbleOuter_filter (t : CStr) (n rem i : Nat) (s : List Componente × Nat)
    (hrem : rem + i = n - 1) (hlen : s.1.length = n) :
    (bubbleOuter n rem i s).1.filter (fun x => decide (x.nome = t)) =
      s.1.filter (fun x => decide (x.nome = t)) := by
  induction rem generalizing i s with
  | zero => rfl
  | succ rem ih =>
    rw [bubbleOuter]
    have hf := bubbleInner_filter t (n - 1 - i) 0 (s.1, s.2, false) (by simp only; omega)
    split_ifs
    · exact hf
    · rw [ih (i + 1) _ (by omega) (by simp only; rw [bubbleInner_length]; exact hlen)]
      exact hf

/-- The bubble sort keeps, for every name, the records of that name in their order. -/
theorem bubbleSortNome_filter (a : List Componente) (t : CStr) :
    (bubbleSortNome a).1.filter (fun x => decide (x.nome = t)) =
      a.filter (fun x => decide (x.nome = t)) :=
  bubbleOuter_filter t a.length (a.length - 1) 0 (a, 0) (by omega) rfl

/-! ## The exact comparison count of the insertion sort -/

theorem range_filter_rd (q : Componente → Bool) (P : List Componente) :
    ∀ T : List Componente,
      ((List.range P.length).filter (fun j => q (rd (P ++ T) j))).length = P.countP q := by
  induction P using List.reverseRecOn with
  | nil => intro T; rfl
  | append_singleton P z ih =>
    intro T
    have hlen : (P ++ [z]).length = P.length + 1 := by simp
    have happ : P ++ [z] ++ T = P ++ z :: T := by simp
    rw [hlen, List.range_succ, List.filter_append, List.length_append, happ, ih (z :: T),
      List.countP_append]
    simp only [List.filter_cons, List.filter_nil, List.countP_cons, List.countP_nil,
      rd_append_length]
    split_ifs <;> rfl

theorem deslocamentos_append (P R : List Componente) (key : Componente) :
    deslocamentos (P ++ key :: R) P.length =
      P.countP (fun x => decide (strcmp x.tipo key.tipo > 0)) := by
  unfold deslocamentos
  rw [rd_append_length]
  exact range_filter_rd (fun x => decide (strcmp x.tipo key.tipo > 0)) P (key :: R)

theorem insertion_prefix_le (L1 L2 : List Componente) (key : Componente)
    (hs : SortedByTipo (L1 ++ L2))
    (h3 : ∀ x, L1.getLast? = some x → strcmp x.tipo key.tipo ≤ 0) :
    ∀ a ∈ L1, strcmp a.tipo key.tipo ≤ 0 := by
  intro a ha
  unfold SortedByTipo at hs
  rw [List.pairwise_append] at hs
  rcases List.eq_nil_or_concat L1 with h | ⟨L, z, h⟩
  · subst h; simp at ha
  · rw [List.concat_eq_append] at h
    subst h
    have hz := h3 z (by simp)
    rcases List.mem_append.1 ha with ha | ha
    · have s1 := hs.1
      rw [List.pairwise_append] at s1
      exact strcmp_le_trans _ _ _ (s1.2.2 a ha z (by simp)) hz
    · have : a = z := by simpa using ha
      rw [this]; exact hz

/-- The comparisons of one insertion are those of the formula. -/
theorem insertionBody_custo (P S R : List Componente) (key : Componente) (c : Nat)
    (hperm : S.Perm P) (hs : SortedByTipo S) :
    (insertionBody S.length (S ++ key :: R, c)).2 =
      c + custoInsertion (P ++ key :: R) P.length := by
  obtain ⟨L1, L2, h1, h2, h3, h4⟩ := insertionBody_spec S R key c
  rw [h4]
  simp only
  unfold custoInsertion
  rw [deslocamentos_append, ← hperm.countP_eq, ← hperm.length_eq, h1, List.countP_append]
  have e1 : L1.countP (fun x => decide (strcmp x.tipo key.tipo > 0)) = 0 := by
    rw [List.countP_eq_zero]
    intro x hx
    have := insertion_prefix_le L1 L2 key (h1 ▸ hs) h3 x hx
    simp only [decide_eq_true_eq]
    omega
  have e2 : L2.countP (fun x => decide (strcmp x.tipo key.tipo > 0)) = L2.length := by
    rw [List.countP_eq_length]
    intro x hx
    simpa using h2 x hx
  rw [e1, e2, List.length_append]
  by_cases hL : L1 = []
  · subst hL; simp
  · have : 0 < L1.length := List.length_pos.2 hL
    rw [if_neg hL, if_pos (by omega)]
    omega

theorem insertionOuter_custo (R : List Componente) :
    ∀ (P S : List Componente) (c : Nat), S.Perm P → SortedByTipo S →
      (insertionOuter R.length S.length (S ++ R, c)).2 =
        c + ((List.range' P.length R.length).map (custoInsertion (P ++ R))).sum := by
  induction R with
  | nil => intro P S c _ _; rfl
  | cons key R ih =>
    intro P S c hperm hs
    have hc := insertionBody_custo P S R key c hperm hs
    obtain ⟨L1, L2, h1, h2, h3, h4⟩ := insertionBody_spec S R key c
    rw [List.length_cons, insertionOuter]
    rw [h4] at hc ⊢
    simp only at hc
    have hlen : S.length + 1 = (L1 ++ key :: L2).length := by rw [h1]; simp; omega
    have happ : L1 ++ key :: L2 ++ R = (L1 ++ key :: L2) ++ R := by simp
    have hperm2 : (L1 ++ key :: L2).Perm (P ++ [key]) := by
      have : (L1 ++ key :: L2).Perm (key :: (L1 ++ L2)) := List.perm_middle
      refine this.trans ?_
      rw [← h1]
      exact (List.Perm.cons key hperm).trans (List.perm_append_singleton key P).symm
    rw [hlen, happ, ih (P ++ [key]) (L1 ++ key :: L2) _ hperm2
      (insertion_sorted L1 L2 key (h1 ▸ hs) h2 h3), hc]
    have e : P ++ [key] ++ R = P ++ key :: R := by simp
    rw [e, List.range'_succ, List.map_cons, List.sum_cons, List.length_append,
      List.length_singleton]
    omega

theorem insertionSortTipo_custo (a : List Componente) :
    (insertionSortTipo a).2 = comparacoesInsertion a := by
  cases a with
  | nil => rfl
  | cons x R =>
    have := insertionOuter_custo R [x] [x] 0 (List.Perm.refl _) (List.pairwise_singleton _ _)
    simpa [insertionSortTipo, comparacoesInsertion] using this

/-! ## Upper bound and worst case of the bubble sort -/

theorem bubbleOuter_count_le (n rem i : Nat) (s : List Componente × Nat) (hrem : rem + i = n - 1) :
    2 * (bubbleOuter n rem i s).2 ≤ 2 * s.2 + rem * (rem + 1) := by
  induction rem generalizing i s with
  | zero => simp [bubbleOuter]
  | succ rem ih =>
    rw [bubbleOuter]
    have hc := bubbleInner_count (n - 1 - i) 0 (s.1, s.2, false)
    simp only at hc
    have hn : n - 1 - i = rem + 1 := by omega
    rw [hn] at hc ⊢
    have hsq : (rem + 1) * (rem + 1 + 1) = rem * (rem + 1) + 2 * (rem + 1) := by ring
    split_ifs
    · simp only
      rw [hc, hsq]
      omega
    · refine le_trans (ih (i + 1) _ (by omega)) ?_
      simp only
      rw [hc, hsq]
      omega

theorem bubbleSortNome_count_le (a : List Componente) :
    2 * (bubbleSortNome a).2 ≤ (a.length - 1) * a.length := by
  have := bubbleOuter_count_le a.length (a.length - 1) 0 (a, 0) (by omega)
  unfold bubbleSortNome
  simp only at this
  cases hn : a.length with
  | zero => rw [hn] at this; simpa using this
  | succ n => rw [hn] at this; simpa using this

/-- A pass over a stretch `x :: T` in which `x` sorts strictly after every record of `T`
swaps at every step and carries `x` to the end of the stretch. -/
theorem bubbleInner_decreasing (x : Componente) (Rest : List Componente) (T : List Componente) :
    ∀ (P : List Componente) (c : Nat) (tr : Bool), (∀ t ∈ T, strcmp x.nome t.nome > 0) →
      bubbleInner T.length P.length (P ++ x :: T ++ Rest, c, tr) =
        (P ++ T ++ x :: Rest, c + T.length, if T = [] then tr else true) := by
  induction T with
  | nil => intro P c tr _; simp [bubbleInner]
  | cons t T ih =>
    intro P c tr h
    rw [List.length_cons, bubbleInner]
    have ha : P ++ x :: (t :: T) ++ Rest = P ++ x :: t :: (T ++ Rest) := by simp
    have e1 : rd (P ++ x :: (t :: T) ++ Rest) P.length = x := by
      rw [ha]; exact rd_append_length P _ x
    have e2 : rd (P ++ x :: (t :: T) ++ Rest) (P.length + 1) = t := by
      have : P ++ x :: (t :: T) ++ Rest = (P ++ [x]) ++ t :: (T ++ Rest) := by simp
      rw [this]
      have hl : P.length + 1 = (P ++ [x]).length := by simp
      rw [hl]; exact rd_append_length _ _ t
    have hgt : strcmp x.nome t.nome > 0 := h t (by simp)
    have hbody : bubbleBody P.length (P ++ x :: (t :: T) ++ Rest, c, tr) =
        ((P ++ [t]) ++ x :: T ++ Rest, c + 1, true) := by
      rcases bubbleBody_cases P.length (P ++ x :: (t :: T) ++ Rest, c, tr) with ⟨hle, _⟩ | ⟨_, e⟩
      · simp only at hle
        rw [e1, e2] at hle
        unfold nomeLe at hle
        omega
      · rw [e]
        simp only
        have hsplit : P ++ x :: (t :: T) ++ Rest =
            P ++ rd (P ++ x :: (t :: T) ++ Rest) P.length ::
              rd (P ++ x :: (t :: T) ++ Rest) (P.length + 1) :: (T ++ Rest) := by
          rw [e1, e2]; exact ha
        rw [swap_adjacent _ P.length P (T ++ Rest) rfl hsplit, e1, e2]
        simp
    rw [hbody]
    have hl : P.length + 1 = (P ++ [t]).length := by simp
    rw [hl, ih (P ++ [t]) (c + 1) true (fun u hu => h u (by simp [hu]))]
    have e3 : (if T = [] then true else true) = true := ite_self _
    have e4 : P ++ [t] ++ T ++ x :: Rest = P ++ t :: T ++ x :: Rest := by simp
    rw [e3, if_neg (List.cons_ne_nil t T), e4, Nat.add_assoc, Nat.add_comm 1]

/-- On strictly decreasing names every pass swaps, so no pass is skipped. -/
theorem bubbleOuter_decreasing (n rem : Nat) :
    ∀ (D Rest : List Componente) (c : Nat), D.length = rem + 1 → n = D.length + Rest.length →
      D.Pairwise (fun x y => strcmp x.nome y.nome > 0) →
      2 * (bubbleOuter n rem Rest.length (D ++ Rest, c)).2 = 2 * c + rem * (rem + 1) := by
  induction rem with
  | zero => intro D Rest c _ _ _; simp [bubbleOuter]
  | succ rem ih =>
    intro D Rest c hD hn hdec
    cases D with
    | nil => simp at hD
    | cons x T =>
      rw [List.pairwise_cons] at hdec
      have hT : T.length = rem + 1 := by simpa using hD
      have hpass := bubbleInner_decreasing x Rest T [] c false hdec.1
      have hlim : n - 1 - Rest.length = T.length := by
        rw [hn]; simp only [List.length_cons]; omega
      rw [bubbleOuter, hlim]
      simp only [List.length_nil, List.nil_append] at hpass
      have hne : T ≠ [] := by
        intro h; rw [h] at hT; simp at hT
      rw [if_neg hne] at hpass
      have hcons : (x :: T) ++ Rest = x :: T ++ Rest := rfl
      rw [hpass]
      simp only [Bool.true_eq_false, if_false]
      have hl : Rest.length + 1 = (x :: Rest).length := by simp
      rw [hl, ih T (x :: Rest) (c + T.length) hT (by rw [hn]; simp; omega) hdec.2, hT]
      ring

theorem bubbleSortNome_count_decreasing (a : List Componente)
    (hdec : a.Pairwise (fun x y => strcmp x.nome y.nome > 0)) :
    2 * (bubbleSortNome a).2 = (a.length - 1) * a.length := by
  unfold bubbleSortNome
  cases hn : a.length with
  | zero => simp [bubbleOuter]
  | succ m =>
    have := bubbleOuter_decreasing a.length m a [] 0 (by omega) (by simp) hdec
    simp only [List.length_nil, List.append_nil] at this
    rw [hn] at this
    simp only [Nat.add_sub_cancel]
    rw [this]
    ring

/-! ## Result of the binary search; the menu loop -/

/-- The loop returns `-1` or an index of the interval whose record has the query's name. -/
theorem buscaLoop_result (a : List Componente) (chave : CStr) :
    ∀ (fuel : Nat) (lo hi : Int) (c : Nat), 0 ≤ lo → hi < a.length → hi - lo + 1 ≤ fuel →
      ∃ r cnt, buscaLoop a chave fuel lo hi c = some (r, cnt) ∧
        (r = -1 ∨ (lo ≤ r ∧ r ≤ hi ∧ (rd a r.toNat).nome = chave)) := by
  intro fuel
  induction fuel with
  | zero =>
    intro lo hi c _ _ hf
    exact ⟨-1, c, buscaLoop_exit a chave 0 lo hi c (by omega), Or.inl rfl⟩
  | succ fuel ih =>
    intro lo hi c hlo hhi hf
    by_cases hle : lo ≤ hi
    · rw [buscaLoop_step a chave fuel lo hi c hle]
      by_cases h0 : strcmp (rd a (lo + (hi - lo) / 2).toNat).nome chave = 0
      · rw [if_pos h0]
        exact ⟨_, _, rfl, Or.inr ⟨by omega, by omega, (strcmp_eq_zero_iff _ _).1 h0⟩⟩
      · rw [if_neg h0]
        split_ifs
        · obtain ⟨r, cnt, e, hr⟩ := ih (lo + (hi - lo) / 2 + 1) hi (c + 1) (by omega) hhi (by omega)
          refine ⟨r, cnt, e, ?_⟩
          rcases hr with hr | ⟨h1, h2, h3⟩
          · exact Or.inl hr
          · exact Or.inr ⟨by omega, h2, h3⟩
        · obtain ⟨r, cnt, e, hr⟩ := ih lo (lo + (hi - lo) / 2 - 1) (c + 1) hlo (by omega) (by omega)
          refine ⟨r, cnt, e, ?_⟩
          rcases hr with hr | ⟨h1, h2, h3⟩
          · exact Or.inl hr
          · exact Or.inr ⟨h1, by omega, h3⟩
    · exact ⟨-1, c, buscaLoop_exit a chave _ lo hi c hle, Or.inl rfl⟩

theorem buscaBinariaPorNome_result (a : List Componente) (chave : CStr) :
    ∃ r cnt, buscaBinariaPorNome a chave = some (r, cnt) ∧
      (r = -1 ∨ (0 ≤ r ∧ r < a.length ∧ (rd a r.toNat).nome = chave)) := by
  obtain ⟨r, cnt, e, hr⟩ := buscaLoop_result a chave a.length 0 ((a.length : Int) - 1) 0
    (le_refl _) (by omega) (by omega)
  refine ⟨r, cnt, e, ?_⟩
  rcases hr with hr | ⟨h1, h2, h3⟩
  · exact Or.inl hr
  · exact Or.inr ⟨h1, by omega, h3⟩

/-- A turn changes the state only by sorting it. -/
theorem menuPasso_cases (s t : Sessao) (opc : Option Nat) (linha : Option CStr) (out : Saida)
    (h : menuPasso s opc linha = Passo.continua t out) :
    t = ⟨(bubbleSortNome s.comps).1, true⟩ ∨ t = ⟨(insertionSortTipo s.comps).1, false⟩ ∨
      t = ⟨(selectionSortPrioridade s.comps).1, false⟩ ∨ t = s := by
  unfold menuPasso at h
  split at h
  · exact Passo.noConfusion h
  · injection h with h1 _; exact Or.inl h1.symm
  · injection h with h1 _; exact Or.inr (Or.inl h1.symm)
  · injection h with h1 _; exact Or.inr (Or.inr (Or.inl h1.symm))
  · split at h
    · injection h with h1 _; exact Or.inr (Or.inr (Or.inr h1.symm))
    · split at h
      · exact Passo.noConfusion h
      · split at h
        · exact Passo.noConfusion h
        · injection h with h1 _; exact Or.inr (Or.inr (Or.inr h1.symm))
  · injection h with h1 _; exact Or.inr (Or.inr (Or.inr h1.symm))
  · exact Passo.noConfusion h
  · injection h with h1 _; exact Or.inr (Or.inr (Or.inr h1.symm))

/-- In every state the loop can reach, a set flag means a name-sorted array. -/
theorem alcancavel_sorted (a0 : List Componente) (s : Sessao) (h : Alcancavel a0 s) :
    s.ordenadoPorNome = true → SortedByNome s.comps := by
  induction h with
  | inicio => intro h; simp at h
  | passo opc linha out _ hstep ih =>
    intro hflag
    rcases menuPasso_cases _ _ opc linha out hstep with e | e | e | e
    · rw [e]; exact bubbleSortNome_sorted _
    · rw [e] at hflag; simp at hflag
    · rw [e] at hflag; simp at hflag
    · rw [e] at hflag ⊢; exact ih hflag

/-- A turn that searched did so for option 4, with the flag set, on the current array,
which it left as it was. -/
theorem menuPasso_busca (s t : Sessao) (opc : Option Nat) (linha : Option CStr)
    (cnt : Nat) (idx : Int) (lido : Option Componente)
    (h : menuPasso s opc linha = Passo.continua t (Saida.busca cnt idx lido)) :
    opc = some 4 ∧ s.ordenadoPorNome = true ∧ t = s ∧
      ∃ chave, linha = some chave ∧ buscaBinariaPorNome s.comps chave = some (idx, cnt) := by
  unfold menuPasso at h
  split at h
  · exact Passo.noConfusion h
  · injection h with _ h2; exact Saida.noConfusion h2
  · injection h with _ h2; exact Saida.noConfusion h2
  · injection h with _ h2; exact Saida.noConfusion h2
  · split at h
    · injection h with _ h2; exact Saida.noConfusion h2
    · rename_i hflag
      split at h
      · exact Passo.noConfusion h
      · rename_i chave
        split at h
        · exact Passo.noConfusion h
        · rename_i i c hb
          injection h with h1 h2
          injection h2 with e1 e2 _
          refine ⟨rfl, by simpa using hflag, h1.symm, chave, rfl, ?_⟩
          rw [hb, e1, e2]
  · injection h with _ h2; exact Saida.noConfusion h2
  · exact Passo.noConfusion h
  · injection h with _ h2; exact Saida.noConfusion h2

/-! ## Small facts used by the claims below -/

theorem sublist_pair_of_filter (p : Componente → Bool) (a out : List Componente)
    (hf : out.filter p = a.filter p) (x y : Componente) (hx : p x = true) (hy : p y = true)
    (h : List.Sublist [x, y] a) : List.Sublist [x, y] out := by
  have h1 := h.filter p
  have h2 : [x, y].filter p = [x, y] := by simp [hx, hy]
  rw [h2, ← hf] at h1
  exact h1.trans (List.filter_sublist out)

theorem cast_half_le (c n : Nat) (h : 2 * c ≤ (n - 1) * n) :
    (c : Int) ≤ (n : Int) * ((n : Int) - 1) / 2 := by
  apply Int.le_ediv_of_mul_le (by norm_num)
  cases n with
  | zero => simp at h; simp [h]
  | succ m =>
    simp only [Nat.add_sub_cancel] at h
    have : ((2 * c : Nat) : Int) ≤ ((m * (m + 1) : Nat) : Int) := by exact_mod_cast h
    push_cast at this ⊢
    linarith

theorem cast_half_eq (c n : Nat) (h : 2 * c = (n - 1) * n) :
    (c : Int) = (n : Int) * ((n : Int) - 1) / 2 := by
  have h2 : (n : Int) * ((n : Int) - 1) = 2 * (c : Int) := by
    cases n with
    | zero => simp at h; simp [h]
    | succ m =>
      simp only [Nat.add_sub_cancel] at h
      have : ((2 * c : Nat) : Int) = ((m * (m + 1) : Nat) : Int) := by rw [h]
      push_cast at this ⊢
      linarith
  rw [h2, Int.mul_ediv_cancel_left _ (by norm_num)]

theorem insertionSortTipo_length (a : List Componente) :
    (insertionSortTipo a).1.length = a.length :=
  (insertionSortTipo_spec a).1.length_eq

theorem selectionSortPrioridade_length (a : List Componente) :
    (selectionSortPrioridade a).1.length = a.length :=
  (selectionSortPrioridade_perm a).length_eq

/-! ## The concrete scenario, evaluated -/

theorem cenario_bubbleSortNome : (bubbleSortNome cenario).1 = cenarioPorNome := by decide

theorem cenario_selectionSortPrioridade :
    (selectionSortPrioridade cenario).1.map Componente.prioridade = [5, 3, 1] := by decide

theorem cenario_buscaBinariaPorNome :
    buscaBinariaPorNome cenarioPorNome mike = some (1, 1) := by decide

theorem cenario_insertionSortTipo_comparacoes :
    (insertionSortTipo cenario).2 = 3 ∧ comparacoesInsertion cenario = 3 := by decide

/-! ## The claims -/

theorem rd_mem_index (a : List Componente) (x : Componente) (h : x ∈ a) :
    ∃ k, k < a.length ∧ rd a k = x := by
  obtain ⟨n, hn, e⟩ := List.getElem_of_mem h
  exact ⟨n, hn, by rw [rd_eq_getElem a n hn]; exact e⟩

/-- C1: for every sequence of records (so for every length from 0 to 20),
`bubbleSortNome` leaves a sequence that is non-decreasing by name under `strcmp` and
is a permutation of the input as whole records. -/
theorem bubbleSortNome_correct (a : List Componente) :
    SortedByNome (bubbleSortNome a).1 ∧ (bubbleSortNome a).1.Perm a :=
  ⟨bubbleSortNome_sorted a, bubbleSortNome_perm a⟩

/-- C2: for every sequence of records (so for every length from 0 to 20),
`insertionSortTipo` leaves a sequence that is non-decreasing by type under `strcmp`
and is a permutation of the input as whole records. -/
theorem insertionSortTipo_correct (a : List Componente) :
    SortedByTipo (insertionSortTipo a).1 ∧ (insertionSortTipo a).1.Perm a :=
  ⟨(insertionSortTipo_spec a).2, (insertionSortTipo_spec a).1⟩

/-- C3: for every sequence of records (so for every length from 0 to 20),
`selectionSortPrioridade` leaves a sequence that is non-increasing by priority and is
a permutation of the input as whole records. -/
theorem selectionSortPrioridade_correct (a : List Componente) :
    SortedByPrioridade (selectionSortPrioridade a).1 ∧ (selectionSortPrioridade a).1.Perm a :=
  ⟨selectionSortPrioridade_sorted a, selectionSortPrioridade_perm a⟩

/-- C4: on a sequence that is non-decreasing by name, a query equal to the name of
some element makes `buscaBinariaPorNome` return an index `i` with `0 ≤ i < n` whose
record has that name. -/
theorem buscaBinariaPorNome_found (a : List Componente) (chave : CStr) (hs : SortedByNome a)
    (hmem : ∃ x ∈ a, x.nome = chave) :
    ∃ i cnt, buscaBinariaPorNome a chave = some (i, cnt) ∧ 0 ≤ i ∧ i < a.length ∧
      (rd a i.toNat).nome = chave := by
  obtain ⟨x, hx, hname⟩ := hmem
  obtain ⟨k, hk, e⟩ := rd_mem_index a x hx
  obtain ⟨i, cnt, e1, e2, e3, e4⟩ := buscaLoop_found a chave hs a.length 0 ((a.length : Int) - 1) 0
    (le_refl _) (by omega) (by omega) ⟨(k : Int), by omega, by omega, by simp [e, hname]⟩
  exact ⟨i, cnt, e1, e2, by omega, e4⟩

theorem buscaBinariaPorNome_found_witness :
    SortedByNome cenarioPorNome ∧ (∃ x ∈ cenarioPorNome, x.nome = mike) ∧
      ∃ i cnt, buscaBinariaPorNome cenarioPorNome mike = some (i, cnt) ∧ 0 ≤ i ∧
        i < cenarioPorNome.length ∧ (rd cenarioPorNome i.toNat).nome = mike :=
  ⟨by decide, by decide, buscaBinariaPorNome_found cenarioPorNome mike (by decide) (by decide)⟩

/-- C5: a query that is not the name of any element makes `buscaBinariaPorNome` return
the not-found result `-1`; this holds for every sequence, name-sorted or not. -/
theorem buscaBinariaPorNome_absent (a : List Componente) (chave : CStr)
    (habs : ∀ x ∈ a, x.nome ≠ chave) :
    (buscaBinariaPorNome a chave).map Prod.fst = some (-1) := by
  obtain ⟨cnt, e⟩ := buscaLoop_absent a chave habs a.length 0 ((a.length : Int) - 1) 0
    (le_refl _) (by omega) (by omega)
  unfold buscaBinariaPorNome
  rw [e]; rfl

theorem buscaBinariaPorNome_absent_witness :
    SortedByNome cenarioPorNome ∧ (∀ x ∈ cenarioPorNome, x.nome ≠ [98, 101, 116, 97]) ∧
      (buscaBinariaPorNome cenarioPorNome [98, 101, 116, 97]).map Prod.fst = some (-1) :=
  ⟨by decide, by decide, buscaBinariaPorNome_absent cenarioPorNome [98, 101, 116, 97] (by decide)⟩

/-- C6: for every sequence (so for every name-sorted one of length `n ≤ 20`) and every
query, `buscaBinariaPorNome` returns and reports at most `⌈log2 (n + 1)⌉` comparisons, one
per probe; the bound is the worst case: a query that sorts after every name of the
sequence takes exactly `⌈log2 (n + 1)⌉` probes, and for every `n` there are a name-sorted
sequence of length `n` and such a query. -/
theorem buscaBinariaPorNome_comparacoes :
    (∀ (a : List Componente) (chave : CStr), ∃ r, buscaBinariaPorNome a chave = some r ∧
      r.2 ≤ Nat.clog 2 (a.length + 1)) ∧
    (∀ (a : List Componente) (chave : CStr), (∀ x ∈ a, strcmp x.nome chave < 0) →
      buscaBinariaPorNome a chave = some (-1, Nat.clog 2 (a.length + 1))) ∧
    (∀ n : Nat, ∃ (a : List Componente) (chave : CStr), a.length = n ∧ SortedByNome a ∧
      (∀ x ∈ a, strcmp x.nome chave < 0) ∧
      buscaBinariaPorNome a chave = some (-1, Nat.clog 2 (n + 1))) := by
  have hright : ∀ (a : List Componente) (chave : CStr), (∀ x ∈ a, strcmp x.nome chave < 0) →
      buscaBinariaPorNome a chave = some (-1, Nat.clog 2 (a.length + 1)) := by
    intro a chave hlt
    have := buscaLoop_count_right a chave hlt a.length 0 ((a.length : Int) - 1) 0 (le_refl _)
      (by omega) (by omega)
    unfold buscaBinariaPorNome
    rw [this]
    have e : ((a.length : Int) - 1 - 0 + 1).toNat = a.length := by omega
    rw [e, Nat.zero_add]
  refine ⟨?_, hright, ?_⟩
  · intro a chave
    obtain ⟨r, e, hr⟩ := buscaLoop_count_le a chave a.length 0 ((a.length : Int) - 1) 0 (by omega)
    refine ⟨r, e, ?_⟩
    have : ((a.length : Int) - 1 - 0 + 1).toNat = a.length := by omega
    rw [this] at hr
    omega
  · intro n
    have hlt : ∀ x ∈ List.replicate n (⟨[97], [97], 1⟩ : Componente), strcmp x.nome [98] < 0 :=
      fun x hx => by rw [List.eq_of_mem_replicate hx]; decide
    refine ⟨List.replicate n (⟨[97], [97], 1⟩ : Componente), [98], by simp, ?_, hlt, ?_⟩
    · apply List.pairwise_of_forall_mem_list
      intro x hx y hy
      rw [List.eq_of_mem_replicate hx, List.eq_of_mem_replicate hy]
      decide
    · have := hright _ _ hlt
      rwa [List.length_replicate] at this

theorem buscaBinariaPorNome_comparacoes_witness :
    (∀ x ∈ cenarioPorNome, strcmp x.nome [122, 117, 108, 117] < 0) ∧
      buscaBinariaPorNome cenarioPorNome [122, 117, 108, 117] =
        some (-1, Nat.clog 2 (cenarioPorNome.length + 1)) :=
  ⟨by decide, buscaBinariaPorNome_comparacoes.2.1 cenarioPorNome [122, 117, 108, 117] (by decide)⟩

/-- C7 (as amended): on a sequence of length `n` that is already non-decreasing by name,
`bubbleSortNome` changes nothing and reports exactly `n - 1` comparisons when `n ≥ 1`,
and none when `n = 0`; that is, `max (n - 1) 0`. -/
theorem bubbleSortNome_comparacoes_sorted (a : List Componente) (hs : SortedByNome a) :
    (bubbleSortNome a).1 = a ∧ ((bubbleSortNome a).2 : Int) = max ((a.length : Int) - 1) 0 := by
  rw [bubbleSortNome_of_sorted a hs]
  refine ⟨rfl, ?_⟩
  simp only
  omega

theorem bubbleSortNome_comparacoes_sorted_witness :
    SortedByNome cenarioPorNome ∧ (bubbleSortNome cenarioPorNome).1 = cenarioPorNome ∧
      ((bubbleSortNome cenarioPorNome).2 : Int) = max ((cenarioPorNome.length : Int) - 1) 0 :=
  ⟨by decide, bubbleSortNome_comparacoes_sorted cenarioPorNome (by decide)⟩

/-- C7, as stated, fails on the empty sequence: it is non-decreasing by name and
`bubbleSortNome` reports `0` comparisons there, not `n - 1 = -1`. -/
theorem bubbleSortNome_comparacoes_empty :
    SortedByNome ([] : List Componente) ∧
      ((bubbleSortNome []).2 : Int) ≠ ((([] : List Componente).length : Int) - 1) := by
  decide

/-- C8: for every input sequence of length `n`, whatever its contents or order,
`selectionSortPrioridade` reports exactly `n (n - 1) / 2` comparisons. -/
theorem selectionSortPrioridade_comparacoes (a : List Componente) :
    ((selectionSortPrioridade a).2 : Int) = (a.length : Int) * ((a.length : Int) - 1) / 2 := by
  have h := selectionSortPrioridade_count a
  have h2 : (a.length : Int) * ((a.length : Int) - 1) = 2 * ((selectionSortPrioridade a).2 : Int) := by
    cases hn : a.length with
    | zero => rw [hn] at h; simp at h; simp [h]
    | succ n =>
      rw [hn] at h
      have : ((2 * (selectionSortPrioridade a).2 : Nat) : Int) = (((n + 1 - 1) * (n + 1) : Nat) : Int) := by
        rw [h]
      push_cast at this
      push_cast
      linarith
  rw [h2, Int.mul_ediv_cancel_left _ (by norm_num)]

/-- C9: with length 0 or 1, each of `bubbleSortNome`, `insertionSortTipo` and
`selectionSortPrioridade` reports zero comparisons and leaves the sequence unchanged. -/
theorem sorts_short (a : List Componente) (h : a.length ≤ 1) :
    bubbleSortNome a = (a, 0) ∧ insertionSortTipo a = (a, 0) ∧
      selectionSortPrioridade a = (a, 0) := by
  match a, h with
  | [], _ => exact ⟨rfl, rfl, rfl⟩
  | [x], _ => exact ⟨rfl, rfl, rfl⟩
  | _ :: _ :: _, h => simp at h

theorem sorts_short_witness :
    [(⟨mike, [120], 3⟩ : Componente)].length ≤ 1 ∧
      bubbleSortNome [⟨mike, [120], 3⟩] = ([⟨mike, [120], 3⟩], 0) ∧
      insertionSortTipo [⟨mike, [120], 3⟩] = ([⟨mike, [120], 3⟩], 0) ∧
      selectionSortPrioridade [⟨mike, [120], 3⟩] = ([⟨mike, [120], 3⟩], 0) :=
  ⟨by decide, sorts_short [⟨mike, [120], 3⟩] (by decide)⟩

/-- C10: for each of the three sorts and every input sequence, sorting twice in succession
yields exactly the same sequence as sorting once. -/
theorem sorts_idempotent (a : List Componente) :
    (bubbleSortNome (bubbleSortNome a).1).1 = (bubbleSortNome a).1 ∧
    (insertionSortTipo (insertionSortTipo a).1).1 = (insertionSortTipo a).1 ∧
    (selectionSortPrioridade (selectionSortPrioridade a).1).1 = (selectionSortPrioridade a).1 := by
  refine ⟨?_, ?_, ?_⟩
  · rw [bubbleSortNome_of_sorted _ (bubbleSortNome_sorted a)]
  · rw [insertionSortTipo_of_sorted _ (insertionSortTipo_spec a).2]
  · exact selectionSortPrioridade_of_sorted _ (selectionSortPrioridade_sorted a)

/-- C11: for each of the three sorts and every input of length `n`, the second of two
successive applications runs on a sequence of length `n` and reports a count that no
input `b` of length `n` undercuts: it is the sort's best-case count for length `n`. -/
theorem second_application_best_case (a b : List Componente) (h : b.length = a.length) :
    ((bubbleSortNome a).1.length = a.length ∧
      (bubbleSortNome (bubbleSortNome a).1).2 ≤ (bubbleSortNome b).2) ∧
    ((insertionSortTipo a).1.length = a.length ∧
      (insertionSortTipo (insertionSortTipo a).1).2 ≤ (insertionSortTipo b).2) ∧
    ((selectionSortPrioridade a).1.length = a.length ∧
      (selectionSortPrioridade (selectionSortPrioridade a).1).2 ≤
        (selectionSortPrioridade b).2) := by
  refine ⟨⟨bubbleSortNome_length a, ?_⟩, ⟨insertionSortTipo_length a, ?_⟩,
    ⟨selectionSortPrioridade_length a, ?_⟩⟩
  · rw [bubbleSortNome_of_sorted _ (bubbleSortNome_sorted a)]
    have := bubbleSortNome_count_ge b
    simp only
    rw [bubbleSortNome_length, ← h]
    exact this
  · rw [insertionSortTipo_of_sorted _ (insertionSortTipo_spec a).2]
    have := insertionSortTipo_count_ge b
    simp only
    rw [insertionSortTipo_length, ← h]
    exact this
  · have h1 := selectionSortPrioridade_count (selectionSortPrioridade a).1
    have h2 := selectionSortPrioridade_count b
    rw [selectionSortPrioridade_length, ← h] at h1
    omega

theorem second_application_best_case_witness :
    cenarioPorNome.length = cenario.length ∧
    ((bubbleSortNome cenario).1.length = cenario.length ∧
      (bubbleSortNome (bubbleSortNome cenario).1).2 ≤ (bubbleSortNome cenarioPorNome).2) ∧
    ((insertionSortTipo cenario).1.length = cenario.length ∧
      (insertionSortTipo (insertionSortTipo cenario).1).2 ≤
        (insertionSortTipo cenarioPorNome).2) ∧
    ((selectionSortPrioridade cenario).1.length = cenario.length ∧
      (selectionSortPrioridade (selectionSortPrioridade cenario).1).2 ≤
        (selectionSortPrioridade cenarioPorNome).2) :=
  ⟨by decide, second_application_best_case cenario cenarioPorNome (by decide)⟩

/-- C12: `insertionSortTipo` is stable: for every type, the records of that type come
out in the order they came in; so two records of equal type that appear in some order
in the input appear in that order in the output. -/
theorem insertionSortTipo_stable (a : List Componente) :
    (∀ t : CStr, (insertionSortTipo a).1.filter (fun x => decide (x.tipo = t)) =
      a.filter (fun x => decide (x.tipo = t))) ∧
    (∀ x y : Componente, x.tipo = y.tipo → List.Sublist [x, y] a →
      List.Sublist [x, y] (insertionSortTipo a).1) := by
  refine ⟨insertionSortTipo_filter a, fun x y hxy h => ?_⟩
  exact sublist_pair_of_filter (fun z => decide (z.tipo = x.tipo)) a _
    (insertionSortTipo_filter a x.tipo) x y (by simp) (by simp [hxy]) h

theorem insertionSortTipo_stable_witness :
    (⟨zeta, [120], 1⟩ : Componente).tipo = (⟨mike, [120], 3⟩ : Componente).tipo ∧
    List.Sublist [⟨zeta, [120], 1⟩, ⟨mike, [120], 3⟩] cenario ∧
    List.Sublist [⟨zeta, [120], 1⟩, ⟨mike, [120], 3⟩] (insertionSortTipo cenario).1 :=
  ⟨by decide, by decide,
    (insertionSortTipo_stable cenario).2 ⟨zeta, [120], 1⟩ ⟨mike, [120], 3⟩ (by decide)
      (by decide)⟩

/-- C13: in every state the menu loop of `main` reaches from a clear flag, a set flag
`ordenadoPorNome` means that the array is non-decreasing by name; and a turn that runs
the binary search runs it with the flag set, on the current array, which is name-sorted. -/
theorem session_invariant (a0 : List Componente) (s : Sessao) (h : Alcancavel a0 s) :
    (s.ordenadoPorNome = true → SortedByNome s.comps) ∧
    (∀ (opc : Option Nat) (linha : Option CStr) (t : Sessao) (cnt : Nat) (idx : Int)
      (lido : Option Componente),
      menuPasso s opc linha = Passo.continua t (Saida.busca cnt idx lido) →
        SortedByNome s.comps ∧
          ∃ chave, linha = some chave ∧ buscaBinariaPorNome s.comps chave = some (idx, cnt)) := by
  refine ⟨alcancavel_sorted a0 s h, ?_⟩
  intro opc linha t cnt idx lido hstep
  obtain ⟨_, hflag, _, hb⟩ := menuPasso_busca s t opc linha cnt idx lido hstep
  exact ⟨alcancavel_sorted a0 s h hflag, hb⟩

theorem session_invariant_witness :
    Alcancavel cenario ⟨cenarioPorNome, true⟩ ∧ SortedByNome cenarioPorNome :=
  have h : Alcancavel cenario ⟨cenarioPorNome, true⟩ :=
    Alcancavel.passo (some 1) none (Saida.ordenado 1 3) Alcancavel.inicio (by decide)
  ⟨h, (session_invariant cenario ⟨cenarioPorNome, true⟩ h).1 rfl⟩

/-- C14 (as amended): in the menu turn of option 4, with the flag clear nothing is
searched, no count is produced and the state is unchanged, whatever the input; the
search is run exactly when the flag is set and the query line is read, then on the
current array, leaving the state unchanged; with the flag set and the input at its end
`main` returns without searching. -/
theorem menuPasso_option4 (comps : List Componente) (flag : Bool) (linha : Option CStr) :
    menuPasso ⟨comps, false⟩ (some 4) linha = Passo.continua ⟨comps, false⟩ Saida.aviso ∧
    buscou (menuPasso ⟨comps, flag⟩ (some 4) linha) = (flag && linha.isSome) ∧
    (∀ chave : CStr, ∃ idx cnt, buscaBinariaPorNome comps chave = some (idx, cnt) ∧
      menuPasso ⟨comps, true⟩ (some 4) (some chave) =
        Passo.continua ⟨comps, true⟩
          (Saida.busca cnt idx (if idx ≥ 0 then some (rd comps idx.toNat) else none))) ∧
    menuPasso ⟨comps, true⟩ (some 4) none = Passo.fim := by
  have hs : ∀ chave : CStr, ∃ idx cnt, buscaBinariaPorNome comps chave = some (idx, cnt) ∧
      menuPasso ⟨comps, true⟩ (some 4) (some chave) =
        Passo.continua ⟨comps, true⟩
          (Saida.busca cnt idx (if idx ≥ 0 then some (rd comps idx.toNat) else none)) := by
    intro chave
    obtain ⟨idx, cnt, e, _⟩ := buscaBinariaPorNome_result comps chave
    refine ⟨idx, cnt, e, ?_⟩
    simp [menuPasso, e]
  refine ⟨by simp [menuPasso], ?_, hs, by simp [menuPasso]⟩
  cases flag with
  | false => simp [menuPasso, buscou]
  | true =>
    cases linha with
    | none => simp [menuPasso, buscou]
    | some chave =>
      obtain ⟨idx, cnt, _, e⟩ := hs chave
      rw [e]; rfl

/-- C14, as stated, fails when the input ends at the query prompt: the flag is set, yet
the turn of option 4 runs no search (`main` returns). -/
theorem menuPasso_option4_end_of_input :
    (Sessao.mk cenarioPorNome true).ordenadoPorNome = true ∧
    menuPasso ⟨cenarioPorNome, true⟩ (some 4) none = Passo.fim ∧
    buscou (menuPasso ⟨cenarioPorNome, true⟩ (some 4) none) = false := by
  decide

/-- C15: for every input `a` of length `n`, `insertionSortTipo` reports exactly the sum over
`i = 1, …, n - 1` of `s_i + (1 if s_i < i else 0)`, where `s_i` is the number of positions
`j < i` with `a[j].tipo` sorting strictly after `a[i].tipo`. -/
theorem insertionSortTipo_comparacoes_formula (a : List Componente) :
    (insertionSortTipo a).2 = comparacoesInsertion a :=
  insertionSortTipo_custo a

/-- C16: for every input of length `n ≥ 1`, the count reported by `bubbleSortNome` lies
between `n - 1` and `n (n - 1) / 2` inclusive, and it is `n (n - 1) / 2` when the names
are strictly decreasing. -/
theorem bubbleSortNome_comparacoes_bounds (a : List Componente) (h : 1 ≤ a.length) :
    (a.length : Int) - 1 ≤ ((bubbleSortNome a).2 : Int) ∧
    ((bubbleSortNome a).2 : Int) ≤ (a.length : Int) * ((a.length : Int) - 1) / 2 ∧
    (a.Pairwise (fun x y => strcmp x.nome y.nome > 0) →
      ((bubbleSortNome a).2 : Int) = (a.length : Int) * ((a.length : Int) - 1) / 2) := by
  refine ⟨?_, cast_half_le _ _ (bubbleSortNome_count_le a), fun hdec =>
    cast_half_eq _ _ (bubbleSortNome_count_decreasing a hdec)⟩
  have := bubbleSortNome_count_ge a
  omega

theorem bubbleSortNome_comparacoes_bounds_witness :
    1 ≤ cenarioPorNome.reverse.length ∧
    cenarioPorNome.reverse.Pairwise (fun x y => strcmp x.nome y.nome > 0) ∧
    ((bubbleSortNome cenarioPorNome.reverse).2 : Int) =
      (cenarioPorNome.reverse.length : Int) * ((cenarioPorNome.reverse.length : Int) - 1) / 2 :=
  ⟨by decide, by decide,
    (bubbleSortNome_comparacoes_bounds cenarioPorNome.reverse (by decide)).2.2 (by decide)⟩

/-- C17: `selectionSortPrioridade` is not stable: on priorities `[1, 1, 5]` with distinct
names the swap of positions 0 and 2 puts the first priority-1 record after the second,
so the records of one priority do not always keep their order. -/
theorem selectionSortPrioridade_unstable :
    instavel.map Componente.prioridade = [1, 1, 5] ∧
    (selectionSortPrioridade instavel).1 =
      [⟨zeta, [120], 5⟩, ⟨mike, [120], 1⟩, ⟨alpha, [120], 1⟩] ∧
    List.Sublist [⟨alpha, [120], 1⟩, ⟨mike, [120], 1⟩] instavel ∧
    List.Sublist [⟨mike, [120], 1⟩, ⟨alpha, [120], 1⟩] (selectionSortPrioridade instavel).1 ∧
    ¬ List.Sublist [⟨alpha, [120], 1⟩, ⟨mike, [120], 1⟩] (selectionSortPrioridade instavel).1 ∧
    ¬ ∀ (a : List Componente) (p : Int),
      (selectionSortPrioridade a).1.filter (fun x => decide (x.prioridade = p)) =
        a.filter (fun x => decide (x.prioridade = p)) := by
  refine ⟨by decide, by decide, by decide, by decide, by decide, fun h => ?_⟩
  have := h instavel 1
  revert this
  decide

/-- C18: `buscaBinariaPorNome` does not check that the array is name-sorted and can miss
a name that is there: on the names `zeta, alpha, mike` (not sorted) the query `zeta`,
the name of the first record, gets `-1`. -/
theorem buscaBinariaPorNome_unsorted :
    ¬ SortedByNome cenario ∧ (∃ x ∈ cenario, x.nome = zeta) ∧
    buscaBinariaPorNome cenario zeta = some (-1, 2) := by
  decide

/-- C19: `bubbleSortNome` is stable: for every name, the records of that name come out
in the order they came in; so two records of equal name that appear in some order in
the input appear in that order in the output. -/
theorem bubbleSortNome_stable (a : List Componente) :
    (∀ t : CStr, (bubbleSortNome a).1.filter (fun x => decide (x.nome = t)) =
      a.filter (fun x => decide (x.nome = t))) ∧
    (∀ x y : Componente, x.nome = y.nome → List.Sublist [x, y] a →
      List.Sublist [x, y] (bubbleSortNome a).1) := by
  refine ⟨bubbleSortNome_filter a, fun x y hxy h => ?_⟩
  exact sublist_pair_of_filter (fun z => decide (z.nome = x.nome)) a _
    (bubbleSortNome_filter a x.nome) x y (by simp) (by simp [hxy]) h

theorem bubbleSortNome_stable_witness :
    (⟨mike, [121], 7⟩ : Componente).nome = (⟨mike, [120], 3⟩ : Componente).nome ∧
    List.Sublist [⟨mike, [121], 7⟩, ⟨mike, [120], 3⟩] repetidos ∧
    List.Sublist [⟨mike, [121], 7⟩, ⟨mike, [120], 3⟩] (bubbleSortNome repetidos).1 :=
  ⟨by decide, by decide,
    (bubbleSortNome_stable repetidos).2 ⟨mike, [121], 7⟩ ⟨mike, [120], 3⟩ (by decide)
      (by decide)⟩

/-- C20: for every sequence, sorted by name or not, and every query, `buscaBinariaPorNome`
returns, and its result `r` is `-1` or satisfies `0 ≤ r < n` with `a[r].nome` equal to
the query; so the read of `comps[idx]` that the menu makes when `idx >= 0` is in bounds,
and the turn leaves the array (which the search only reads) and the flag as they were. -/
theorem buscaBinariaPorNome_safe (a : List Componente) (chave : CStr) :
    ∃ r cnt, buscaBinariaPorNome a chave = some (r, cnt) ∧
      (r = -1 ∨ (0 ≤ r ∧ r < a.length ∧ (rd a r.toNat).nome = chave)) ∧
      (r ≥ 0 → r.toNat < a.length) ∧
      menuPasso ⟨a, true⟩ (some 4) (some chave) =
        Passo.continua ⟨a, true⟩
          (Saida.busca cnt r (if r ≥ 0 then some (rd a r.toNat) else none)) := by
  obtain ⟨r, cnt, e, hr⟩ := buscaBinariaPorNome_result a chave
  refine ⟨r, cnt, e, hr, ?_, by simp [menuPasso, e]⟩
  intro h0
  rcases hr with hr | ⟨_, h2, _⟩
  · omega
  · omega

end FreeFire
